import Mathlib

/-!
Verification development for the scipy sandbox `numexpr` expression compiler
(`Lib/sandbox/numexpr/expressions.py`).

The Python source builds expression ASTs by operator overloading on placeholder
node objects, canonicalizes variables and constants by value numbering, assigns
registers across a variable/temporary file and a constant file (with temporary
reuse), and emits one fixed-width instruction per operation node.

Modelling conventions used throughout this file:
* numeric values are rationals (`ℚ`); the host's exact arithmetic on literals
  (`+ - * -` negation, and true division `1./v`) is exact on the values the
  compiler manipulates, and division by zero is modelled as the
  `ZeroDivisionError` the host raises;
* Python object identity is modelled by tagging every constructed AST node with
  a distinct numeric id (`annot`), and every created `Register` object with a
  distinct numeric id (a "robj"); mutation of a shared `Register` object is
  modelled by updating a store mapping robj ids to `Register` records;
* Python dictionaries are modelled as association lists, with dictionary
  assignment modelled by cons-to-front so that the most recent assignment wins
  on lookup; the dictionaries keyed by newly seen names/values carry their
  entries in first-seen order as a fixed representative enumeration. CPython 2
  itself iterates dict keys in hash-slot order, so every property proved below
  about data drawn from such a dictionary in bulk is one that is invariant
  under permuting that enumeration (membership, duplicate-freedom, lengths,
  the joint correspondence between a pool slot, its value and its register
  index, and existential error reporting) — with one deliberate exception: the
  actual CPython 2 hash-slot iteration order over the float keys of
  `const_map` is modelled separately (`pyFloatHash`, `dictSlot8`,
  `dictIterOrder`, exact for small dicts of nonnegative integral float keys in
  pairwise distinct slots) and shown to differ from first-seen order;
* serialization of an instruction to its 4 characters via the external
  `interpreter.opcodes` table is kept at the structured level: an instruction
  holds its opcode string and the robj ids of its destination and operand
  registers (the encoded bytes are the `n` fields of those registers, with 0
  for an absent unary second operand).
-/

namespace NumexprPy

/-- Decidable equality of `Except` results, so that concrete runs of the
compiler can be checked by evaluation. -/
instance [DecidableEq ε] [DecidableEq α] : DecidableEq (Except ε α) := fun a b =>
  match a, b with
  | .ok x, .ok y =>
    match decEq x y with
    | .isTrue h => .isTrue (h ▸ rfl)
    | .isFalse h => .isFalse (fun hc => h (Except.ok.inj hc))
  | .error x, .error y =>
    match decEq x y with
    | .isTrue h => .isTrue (h ▸ rfl)
    | .isFalse h => .isFalse (fun hc => h (Except.error.inj hc))
  | .ok _, .error _ => .isFalse (fun hc => Except.noConfusion hc)
  | .error _, .ok _ => .isFalse (fun hc => Except.noConfusion hc)

/-- Association-list lookup by decidable equality (Python dictionary lookup);
the first (most recently prepended) binding of a key wins. -/
def alookup [DecidableEq κ] (k : κ) : List (κ × β) → Option β
  | [] => none
  | (k1, v) :: rest => if k = k1 then some v else alookup k rest

/-- Lexicographic comparison of character lists by code point, the order
Python's `list.sort` applies to these ASCII identifier strings. -/
def charListLe : List Char → List Char → Bool
  | [], _ => true
  | _ :: _, [] => false
  | a :: as, b :: bs =>
    if a.toNat < b.toNat then true
    else if b.toNat < a.toNat then false
    else charListLe as bs

/-- Lexicographic string comparison. -/
def strLe (a b : String) : Bool :=
  charListLe a.data b.data

/-- Insert a string into a sorted list (the elementary step of sorting). -/
def insertSorted (s : String) : List String → List String
  | [] => [s]
  | t :: ts => if strLe s t then s :: t :: ts else t :: insertSorted s ts

/-- Sort a list of strings lexicographically (`input_order.sort()`). -/
def sortNames : List String → List String
  | [] => []
  | s :: ss => insertSorted s (sortNames ss)

/-- Errors raised by the Python code along the modelled paths. -/
inductive PErr where
  /-- `ZeroDivisionError`, raised by `1./value` when `value` is zero
  (OpNode division normalization) or by `operator.div` on a zero divisor. -/
  | zeroDivision
  /-- `AttributeError`: walking an `OpNode` whose operand is a plain Python
  number calls `.walk` on an `int`/`float`, which has no such attribute. -/
  | attributeWalk
  /-- `ValueError("input name %r not found in expression" % name)`. -/
  | inputNotFound (name : String)
  /-- `ValueError("input name %r not specified in order" % name)`. -/
  | inputNotSpecified (name : String)
  /-- `SyntaxError` from `compile(s, '<expr>', 'eval')` on malformed text. -/
  | syntaxError
  deriving DecidableEq, Repr

/-- Expression AST nodes: `VariableNode`, `ConstantNode` and `OpNode` (with one
or two operands, the only arities the compiler constructs). -/
inductive ENode where
  | var (name : String)
  | const (value : ℚ)
  | op1 (opcode : String) (a : ENode)
  | op2 (opcode : String) (a b : ENode)
  deriving DecidableEq, Repr

/-- Whether a node is a `ConstantNode` (`isinstance(x, ConstantNode)`). -/
def ENode.isConst : ENode → Bool
  | .const _ => true
  | _ => false

/-- Whether a node is an `OpNode` (`isinstance(x, OpNode)`). -/
def ENode.isOp : ENode → Bool
  | .op1 _ _ => true
  | .op2 _ _ _ => true
  | _ => false

/-- Binary `OpNode` construction (`OpNode.__init__`, lines 272-289): if the
first operand is a `ConstantNode` the opcode is tagged `_c` with operands kept
in place; if the second operand is a `ConstantNode` then `sub` is rewritten to
`add_c` with the negated constant (`ConstantNode.__neg__`), `div` is rewritten
to `mul_c` with the reciprocal constant `1./value` (raising `ZeroDivisionError`
when the value is zero), and other opcodes are tagged `_c`. -/
def OpNode.mk2 (opcode : String) (a b : ENode) : Except PErr ENode :=
  match a, b with
  | ENode.const _, _ => .ok (ENode.op2 (opcode ++ "_c") a b)
  | _, ENode.const v =>
      if opcode = "sub" then
        .ok (ENode.op2 "add_c" a (ENode.const (-v)))
      else if opcode = "div" then
        if v = 0 then .error .zeroDivision
        else .ok (ENode.op2 "mul_c" a (ENode.const (1 / v)))
      else .ok (ENode.op2 (opcode ++ "_c") a b)
  | _, _ => .ok (ENode.op2 opcode a b)

/-- Unary `OpNode` construction: the `len(args) == 2` normalization does not
apply, so the opcode and operand are stored unchanged. -/
def OpNode.mk1 (opcode : String) (a : ENode) : ENode :=
  ENode.op1 opcode a

/-- A value flowing through the host's evaluation of an expression string:
either a plain Python number or a placeholder node. -/
inductive PyVal where
  | num (v : ℚ)
  | node (e : ENode)
  deriving DecidableEq, Repr

/-- The four binary arithmetic operators the module supports. -/
inductive BinKind where
  | add
  | sub
  | mul
  | div
  deriving DecidableEq, Repr

/-- The opcode name `binop` closes over for each operator. -/
def BinKind.opname : BinKind → String
  | .add => "add"
  | .sub => "sub"
  | .mul => "mul"
  | .div => "div"

/-- Host arithmetic (`operator.add/sub/mul/div`) on numeric values, raising
`ZeroDivisionError` on a zero divisor. -/
def BinKind.fold : BinKind → ℚ → ℚ → Except PErr ℚ
  | .add, a, b => .ok (a + b)
  | .sub, a, b => .ok (a - b)
  | .mul, a, b => .ok (a * b)
  | .div, a, b => if b = 0 then .error .zeroDivision else .ok (a / b)

/-- Forward binary method of a node (left operand is the node `self`).
`ConstantNode` overrides the four operators via `optimize_constants`
(lines 247-267): when the other operand is itself a `ConstantNode` the
operation folds to a `ConstantNode` of the host-arithmetic result; otherwise it
falls back to `ExpressionNode`'s `binop` closure (lines 200-207), which wraps a
plain-number operand into a `ConstantNode` and builds an `OpNode`. -/
def nodeBin (k : BinKind) (self : ENode) (other : PyVal) : Except PErr PyVal :=
  match self, other with
  | ENode.const v, .node (ENode.const w) =>
      (k.fold v w).map (fun r => .node (ENode.const r))
  | _, .num w => (OpNode.mk2 k.opname self (ENode.const w)).map .node
  | _, .node y => (OpNode.mk2 k.opname self y).map .node

/-- Reflected binary method of a node (the node is the right operand `self`,
`other` is the left operand). `__radd__`/`__rsub__`/`__rmul__`/`__rdiv__` are
the same `binop` closure as the forward methods (lines 216, 223-225) and are
not overridden by `ConstantNode`, so the node still becomes the first `OpNode`
operand and a numeric left operand becomes the trailing `ConstantNode`. -/
def nodeRBin (k : BinKind) (self : ENode) (other : PyVal) : Except PErr PyVal :=
  match other with
  | .num w => (OpNode.mk2 k.opname self (ENode.const w)).map .node
  | .node y => (OpNode.mk2 k.opname self y).map .node

/-- Evaluation of the host expression `l <op> r`: two numbers combine by host
arithmetic; a node on the left dispatches to its (class's) forward method; a
number on the left returns `NotImplemented` from the number type, so the node
on the right handles it through its reflected method. -/
def pyArith (k : BinKind) (l r : PyVal) : Except PErr PyVal :=
  match l, r with
  | .num a, .num b => (k.fold a b).map .num
  | .num a, .node x => nodeRBin k x (.num a)
  | .node x, o => nodeBin k x o

/-- Host unary negation: numbers negate numerically; `ConstantNode.__neg__`
folds to a negated `ConstantNode` (lines 269-270); other nodes build a unary
`neg` `OpNode` (lines 218-219). -/
def pyNeg : PyVal → PyVal
  | .num v => .num (-v)
  | .node (ENode.const v) => .node (ENode.const (-v))
  | .node e => .node (OpNode.mk1 "neg" e)

/-! ### The host expression parser

`string2expression` (lines 40-49) relies on the host language: it compiles the
text with Python's own parser and evaluates the code object in an environment
binding every referenced name to a `VariableNode`.  Modelled from the spec:
the grammar is the fixed arithmetic subset (section 4.1 of the design)
`expr := term (('+'|'-') term)*`, `term := factor (('*'|'/') factor)*`,
`factor := '-' factor | '(' expr ')' | NUMBER | IDENT`, evaluated bottom-up
exactly as Python's evaluator would: literals stay plain numbers until an
operator application involves a node. -/

/-- Tokens of the arithmetic expression grammar. -/
inductive Tok where
  | num (v : ℚ)
  | ident (s : String)
  | plus
  | minus
  | star
  | slash
  | lparen
  | rparen
  deriving DecidableEq, Repr

/-- Numeric value of a digit string (integer literals). -/
def digitsVal (cs : List Char) : ℕ :=
  cs.foldl (fun acc c => acc * 10 + (c.toNat - '0'.toNat)) 0

/-- Tokenizer (fuelled; fuel `cs.length + 1` always suffices since every step
consumes at least one character). -/
def tokenizeF : ℕ → List Char → Except PErr (List Tok)
  | 0, _ => .error .syntaxError
  | _ + 1, [] => .ok []
  | n + 1, c :: cs =>
    if c = ' ' then tokenizeF n cs
    else if c.isDigit then
      (tokenizeF n ((c :: cs).dropWhile Char.isDigit)).map
        (fun ts => Tok.num (digitsVal ((c :: cs).takeWhile Char.isDigit)) :: ts)
    else if c.isAlpha ∨ c = '_' then
      (tokenizeF n ((c :: cs).dropWhile (fun d => d.isAlphanum ∨ d = '_'))).map
        (fun ts =>
          Tok.ident (String.mk ((c :: cs).takeWhile (fun d => d.isAlphanum ∨ d = '_'))) :: ts)
    else if c = '+' then (tokenizeF n cs).map (Tok.plus :: ·)
    else if c = '-' then (tokenizeF n cs).map (Tok.minus :: ·)
    else if c = '*' then (tokenizeF n cs).map (Tok.star :: ·)
    else if c = '/' then (tokenizeF n cs).map (Tok.slash :: ·)
    else if c = '(' then (tokenizeF n cs).map (Tok.lparen :: ·)
    else if c = ')' then (tokenizeF n cs).map (Tok.rparen :: ·)
    else .error .syntaxError

/-- Tokenize a whole string. -/
def tokenize (s : String) : Except PErr (List Tok) :=
  tokenizeF (s.length + 1) s.data

/-- Abstract syntax of the parsed host expression, before evaluation against
the placeholder environment. -/
inductive PyExpr where
  | num (v : ℚ)
  | name (s : String)
  | bin (k : BinKind) (l r : PyExpr)
  | neg (a : PyExpr)
  deriving DecidableEq, Repr

/-- Fuelled recursive-descent parser over the grammar, one function for all
nonterminals so that recursion is structural on the fuel: the tag selects
`0 = expr`, `1 = additive tail`, `2 = term`, `3 = multiplicative tail`,
`4 = factor`; the `PyExpr` argument is the accumulated left operand of a tail
(ignored by the other nonterminals). -/
def parseP : ℕ → ℕ → PyExpr → List Tok → Except PErr (PyExpr × List Tok)
  | 0, _, _, _ => .error .syntaxError
  | n + 1, 0, acc, ts =>
      (parseP n 2 acc ts).bind (fun pr => parseP n 1 pr.1 pr.2)
  | n + 1, 1, l, Tok.plus :: ts =>
      (parseP n 2 l ts).bind (fun pr => parseP n 1 (PyExpr.bin .add l pr.1) pr.2)
  | n + 1, 1, l, Tok.minus :: ts =>
      (parseP n 2 l ts).bind (fun pr => parseP n 1 (PyExpr.bin .sub l pr.1) pr.2)
  | _ + 1, 1, l, ts => .ok (l, ts)
  | n + 1, 2, acc, ts =>
      (parseP n 4 acc ts).bind (fun pr => parseP n 3 pr.1 pr.2)
  | n + 1, 3, l, Tok.star :: ts =>
      (parseP n 4 l ts).bind (fun pr => parseP n 3 (PyExpr.bin .mul l pr.1) pr.2)
  | n + 1, 3, l, Tok.slash :: ts =>
      (parseP n 4 l ts).bind (fun pr => parseP n 3 (PyExpr.bin .div l pr.1) pr.2)
  | _ + 1, 3, l, ts => .ok (l, ts)
  | n + 1, 4, acc, Tok.minus :: ts =>
      (parseP n 4 acc ts).map (fun pr => (PyExpr.neg pr.1, pr.2))
  | n + 1, 4, acc, Tok.lparen :: ts =>
      (parseP n 0 acc ts).bind (fun pr =>
        match pr.2 with
        | Tok.rparen :: rest => .ok (pr.1, rest)
        | _ => .error .syntaxError)
  | _ + 1, 4, _, Tok.num v :: ts => .ok (PyExpr.num v, ts)
  | _ + 1, 4, _, Tok.ident s :: ts => .ok (PyExpr.name s, ts)
  | _ + 1, _, _, _ => .error .syntaxError

/-- Parse a complete token list as one expression (the fuel is generous: each
recursion level strips one unit and consumes tokens at least every few
levels). -/
def parseTop (ts : List Tok) : Except PErr PyExpr :=
  (parseP (4 * ts.length + 8) 0 (PyExpr.num 0) ts).bind (fun pr =>
    match pr.2 with
    | [] => .ok pr.1
    | _ => .error .syntaxError)

/-- Bottom-up evaluation of the parsed expression in the environment that maps
every identifier to `VariableNode(name)` (`names[name] = getattr(E, name)`). -/
def evalPy : PyExpr → Except PErr PyVal
  | .num v => .ok (.num v)
  | .name s => .ok (.node (ENode.var s))
  | .bin k l r =>
      (evalPy l).bind (fun lv => (evalPy r).bind (fun rv => pyArith k lv rv))
  | .neg a => (evalPy a).map pyNeg

/-- `string2expression` (lines 40-49): parse the text and evaluate it with
identifiers bound to `VariableNode`s.  A fully constant text therefore
evaluates to a plain number, not to a node. -/
def string2expression (s : String) : Except PErr PyVal :=
  (tokenize s).bind (fun ts => (parseTop ts).bind evalPy)

/-! ### The compiler pipeline (`numexpr`, lines 51-166) -/

/-- A `Register` object (lines 20-27): `n` is `None` until the register is
numbered, `name` marks an input register, `temporary` a temporary of the
variable file, `constant` a register of the constant file holding `value`. -/
structure Register where
  n : Option ℕ
  name : Option String
  temporary : Bool
  constant : Bool
  value : Option ℚ
  deriving DecidableEq, Repr

/-- The `Register` used when a lookup misses; unreachable in the states the
compiler produces (Python would raise `KeyError`). -/
def Register.missing : Register :=
  { n := none, name := none, temporary := false, constant := false, value := none }

/-- AST nodes annotated with distinct ids modelling Python object identity. -/
inductive INode where
  | var (id : ℕ) (name : String)
  | const (id : ℕ) (value : ℚ)
  | op1 (id : ℕ) (opcode : String) (a : INode)
  | op2 (id : ℕ) (opcode : String) (a b : INode)
  deriving DecidableEq, Repr

/-- The id of a node. -/
def INode.nid : INode → ℕ
  | .var i _ => i
  | .const i _ => i
  | .op1 i _ _ => i
  | .op2 i _ _ _ => i

/-- The opcode of an operation node (`""` on leaves, never used there). -/
def INode.opc : INode → String
  | .op1 _ oc _ => oc
  | .op2 _ oc _ _ => oc
  | _ => ""

/-- The operand list (`_args`) of a node. -/
def INode.args : INode → List INode
  | .op1 _ _ a => [a]
  | .op2 _ _ a b => [a, b]
  | _ => []

/-- Whether an annotated node is an `OpNode`. -/
def INode.isOpN : INode → Bool
  | .op1 _ _ _ => true
  | .op2 _ _ _ _ => true
  | _ => false

/-- Number of nodes of a tree. -/
def ENode.sizeE : ENode → ℕ
  | .var _ => 1
  | .const _ => 1
  | .op1 _ a => a.sizeE + 1
  | .op2 _ a b => a.sizeE + b.sizeE + 1

/-- Annotate every node of a tree with a distinct id, numbering the nodes in
post order (operands before their operation, left to right) starting at `n`.
Returns the annotated tree and the next unused id. -/
def annot : ENode → ℕ → INode × ℕ
  | .var s, n => (.var n s, n + 1)
  | .const v, n => (.const n v, n + 1)
  | .op1 oc a, n =>
      let pa := annot a n
      (.op1 pa.2 oc pa.1, pa.2 + 1)
  | .op2 oc a b, n =>
      let pa := annot a n
      let pb := annot b pa.2
      (.op2 pb.2 oc pa.1 pb.1, pb.2 + 1)

/-- `ExpressionNode.walk`/`_walk` (lines 227-237, 294-298): the deterministic
post-order traversal, operands before their node, left to right. -/
def INode.walkL : INode → List INode
  | .var i s => [.var i s]
  | .const i v => [.const i v]
  | .op1 i oc a => a.walkL ++ [.op1 i oc a]
  | .op2 i oc a b => a.walkL ++ b.walkL ++ [.op2 i oc a b]

/-- The `(name, id)` pairs of the `VariableNode`s of a walk, in walk order. -/
def varPairs (l : List INode) : List (String × ℕ) :=
  l.filterMap (fun a =>
    match a with
    | .var i s => some (s, i)
    | _ => none)

/-- The `(value, id)` pairs of the `ConstantNode`s of a walk, in walk order. -/
def constPairs (l : List INode) : List (ℚ × ℕ) :=
  l.filterMap (fun a =>
    match a with
    | .const i v => some (v, i)
    | _ => none)

/-- Canonicalization by first-seen key (lines 68-75 for names, 92-98 for
constant values): the first node carrying each key becomes canonical; the
accumulated map lists canonical `(key, id)` pairs in first-seen order, and the
node map sends every node id to its canonical id. -/
def firstSeenAux [DecidableEq κ] (acc : List (κ × ℕ)) (nm : List (ℕ × ℕ)) :
    List (κ × ℕ) → List (κ × ℕ) × List (ℕ × ℕ)
  | [] => (acc, nm)
  | (k, i) :: rest =>
    match alookup k acc with
    | some c => firstSeenAux acc (nm ++ [(i, c)]) rest
    | none => firstSeenAux (acc ++ [(k, i)]) (nm ++ [(i, i)]) rest

/-- Canonicalize a list of keyed nodes starting from empty maps. -/
def firstSeen [DecidableEq κ] (ps : List (κ × ℕ)) :
    List (κ × ℕ) × List (ℕ × ℕ) :=
  firstSeenAux [] [] ps

/-- The deduplication a first-seen map performs on its keys: keep the first
occurrence of each key, in order. -/
def dedupFirstAux [DecidableEq α] (acc : List α) : List α → List α
  | [] => acc
  | a :: rest => if a ∈ acc then dedupFirstAux acc rest else dedupFirstAux (acc ++ [a]) rest

/-- First-occurrence deduplication of a list. -/
def dedupFirst [DecidableEq α] (l : List α) : List α :=
  dedupFirstAux [] l

/-- `node_map.get(a, a)` (line 103/124/135): canonical id of a node id. -/
def nodeOf (nm : List (ℕ × ℕ)) (i : ℕ) : ℕ :=
  (alookup i nm).getD i

/-- Lookup of the register object assigned to a node id (`registers[a]`);
the default is unreachable in the states the compiler produces. -/
def raOf (ra : List (ℕ × ℕ)) (i : ℕ) : ℕ :=
  (alookup i ra).getD 0

/-- The register record currently held by a register object id. -/
def regAt (st : List (ℕ × Register)) (robj : ℕ) : Register :=
  (alookup robj st).getD Register.missing

/-- In-place mutation of the register object `robj`. -/
def updStore (robj : ℕ) (f : Register → Register) (st : List (ℕ × Register)) :
    List (ℕ × Register) :=
  st.map (fun pr => if pr.1 = robj then (pr.1, f pr.2) else pr)

/-- Allocation state: the created register objects, the `registers` mapping
from node ids to register objects (most recent assignment first), and the next
fresh register object id. -/
structure AState where
  store : List (ℕ × Register)
  ra : List (ℕ × ℕ)
  next : ℕ
  deriving DecidableEq, Repr

/-- The `Register(i + 1, name)` objects created for the input order (lines
107-110), keyed by the consecutive fresh object ids starting at `next`. -/
def inpStore (next i : ℕ) : List String → List (ℕ × Register)
  | [] => []
  | s :: rest =>
    (next,
      { n := some (i + 1), name := some s, temporary := false,
        constant := false, value := none }) :: inpStore (next + 1) (i + 1) rest

/-- The `registers[v] = ...` assignments of the input loop; each iteration
places its assignment in front of the previous ones (the most recent
assignment of a dictionary key wins on lookup). -/
def inpRA (nameMap : List (String × ℕ)) (next : ℕ) : List String → List (ℕ × ℕ)
  | [] => []
  | s :: rest =>
    inpRA nameMap (next + 1) rest ++ [((alookup s nameMap).getD 0, next)]

/-- Input-register assignment (lines 107-110): the `i`-th name of the input
order creates `Register(i + 1, name)` and assigns it to the canonical
`VariableNode` of that name. -/
def allocInputs (nameMap : List (String × ℕ)) (a : AState) (ord : List String) : AState :=
  { store := a.store ++ inpStore a.next 0 ord,
    ra := inpRA nameMap a.next ord ++ a.ra,
    next := a.next + ord.length }

/-- The fresh unnumbered temporary `Register` objects, one per operation
node (lines 111-113). -/
def tmpStore (next : ℕ) : List INode → List (ℕ × Register)
  | [] => []
  | _ :: rest =>
    (next,
      { n := none, name := none, temporary := true,
        constant := false, value := none }) :: tmpStore (next + 1) rest

/-- The `registers[a] = ...` assignments of the temporary loop, most recent
first. -/
def tmpRA (next : ℕ) : List INode → List (ℕ × ℕ)
  | [] => []
  | o :: rest => tmpRA (next + 1) rest ++ [(o.nid, next)]

/-- Temporary creation (lines 111-113): every operation node gets a fresh,
unnumbered temporary register. -/
def allocTemps (a : AState) (ops : List INode) : AState :=
  { store := a.store ++ tmpStore a.next ops,
    ra := tmpRA a.next ops ++ a.ra,
    next := a.next + ops.length }

/-- The `Register(i, constant=True, value)` objects of the constant map
(lines 114-119). -/
def constStore (next i : ℕ) : List (ℚ × ℕ) → List (ℕ × Register)
  | [] => []
  | kv :: rest =>
    (next,
      { n := some i, name := none, temporary := false,
        constant := true, value := some kv.1 }) :: constStore (next + 1) (i + 1) rest

/-- The `registers[c] = ...` assignments of the constant loop, most recent
first. -/
def constRA (next : ℕ) : List (ℚ × ℕ) → List (ℕ × ℕ)
  | [] => []
  | kv :: rest => constRA (next + 1) rest ++ [(kv.2, next)]

/-- Constant-register assignment (lines 114-119): the `i`-th entry of the
constant map gets `Register(i, constant=True, value)`. -/
def allocConsts (a : AState) (cm : List (ℚ × ℕ)) : AState :=
  { store := a.store ++ constStore a.next 0 cm,
    ra := constRA a.next cm ++ a.ra,
    next := a.next + cm.length }

/-- One step of the reuse pass (lines 121-127): the first operand whose
register is currently a temporary donates its register object to the node. -/
def reuseStep (nodeMap : List (ℕ × ℕ)) (a : AState) (o : INode) : AState :=
  match o.args.find? (fun arg => (regAt a.store (raOf a.ra (nodeOf nodeMap arg.nid))).temporary) with
  | some arg => { a with ra := (o.nid, raOf a.ra (nodeOf nodeMap arg.nid)) :: a.ra }
  | none => a

/-- Root fix-up (lines 129-131): the root's register object is mutated to
index 0 with its temporary flag cleared. -/
def fixRoot (a : AState) (root : ℕ) : AState :=
  { a with store := updStore root (fun r => { r with n := some 0, temporary := false }) a.store }

/-- One emitted instruction, at the register-object level.  Serialization to
the 4 characters `opcode dest operand1 operand2` reads the opcode byte from
the external `interpreter.opcodes` table and each register's final `n`
(`chr(0)` for the absent second operand of a unary opcode). -/
structure Instr where
  opcode : String
  dest : ℕ
  a1 : ℕ
  a2 : Option ℕ
  deriving DecidableEq, Repr

/-- Emission state: the store (mutated by on-demand temporary numbering), the
set of already numbered temporaries (`seen_temps`), and the emitted program. -/
structure EState where
  store : List (ℕ × Register)
  seen : List ℕ
  prog : List Instr
  deriving DecidableEq, Repr

/-- The `reg` closure (lines 133-140): resolve a node id to its canonical
register object; if that object is a not-yet-seen temporary, number it with
the next free index `1 + n_inputs + len(seen_temps)` and remember it. -/
def touch (nInputs : ℕ) (nodeMap ra : List (ℕ × ℕ)) (es : EState) (aid : ℕ) :
    ℕ × EState :=
  let robj := raOf ra (nodeOf nodeMap aid)
  let m := regAt es.store robj
  if robj ∉ es.seen ∧ m.temporary = true then
    (robj,
      { es with
          store := updStore robj (fun r => { r with n := some (1 + nInputs + es.seen.length) }) es.store,
          seen := robj :: es.seen })
  else (robj, es)

/-- Emit the instruction of one operation node (lines 150-156): destination
register first, then the operand registers left to right; a unary operation
leaves the second operand empty. -/
def emitStep (nInputs : ℕ) (nodeMap ra : List (ℕ × ℕ)) (es : EState) (o : INode) : EState :=
  match o with
  | .op1 i oc x =>
      let pd := touch nInputs nodeMap ra es i
      let p1 := touch nInputs nodeMap ra pd.2 x.nid
      { p1.2 with prog := p1.2.prog ++ [{ opcode := oc, dest := pd.1, a1 := p1.1, a2 := none }] }
  | .op2 i oc x y =>
      let pd := touch nInputs nodeMap ra es i
      let p1 := touch nInputs nodeMap ra pd.2 x.nid
      let p2 := touch nInputs nodeMap ra p1.2 y.nid
      { p2.2 with prog := p2.2.prog ++ [{ opcode := oc, dest := pd.1, a1 := p1.1, a2 := some p2.1 }] }
  | _ => es

/-- The compiled program together with the allocation artifacts the theorems
below speak about: the metadata handed to the external virtual machine
(`n_inputs`, `n_temps`, `input_names`, `constants`, `program`) and the final
register store, register assignment, canonical maps and root register. -/
structure Prog where
  n_inputs : ℕ
  n_temps : ℕ
  input_names : List String
  constants : List ℚ
  program : List Instr
  store : List (ℕ × Register)
  regAssign : List (ℕ × ℕ)
  rootRobj : ℕ
  nameMap : List (String × ℕ)
  constMap : List (ℚ × ℕ)
  nodeMap : List (ℕ × ℕ)
  deriving DecidableEq, Repr

/-- Wrapping of a bare `VariableNode`/`ConstantNode` into a unary `copy`
operation (lines 64-65), so the compiled expression is always an `OpNode`. -/
def wrapNode (e : ENode) : ENode :=
  if e.isOp then e else ENode.op1 "copy" e

/-- The operation nodes of the walk, in walk (dependency) order. -/
def bpOps (exI : INode) : List INode :=
  exI.walkL.filter INode.isOpN

/-- The canonical constant map of the walk (lines 91-98). -/
def bpCM (exI : INode) : List (ℚ × ℕ) × List (ℕ × ℕ) :=
  firstSeen (constPairs exI.walkL)

/-- The combined `node_map` (variable entries then constant entries). -/
def bpNodeMap (exI : INode) (varEntries : List (ℕ × ℕ)) : List (ℕ × ℕ) :=
  varEntries ++ (bpCM exI).2

/-- The allocation state after the three creation phases (lines 105-119):
input registers, fresh temporaries, constant registers. -/
def bpA3 (exI : INode) (nameMap : List (String × ℕ)) (ord : List String) : AState :=
  allocConsts
    (allocTemps (allocInputs nameMap { store := [], ra := [], next := 0 } ord) (bpOps exI))
    (bpCM exI).1

/-- The allocation state after the temporary-reuse pass (lines 121-127). -/
def bpA4 (exI : INode) (nameMap : List (String × ℕ))
    (varEntries : List (ℕ × ℕ)) (ord : List String) : AState :=
  (bpOps exI).foldl (reuseStep (bpNodeMap exI varEntries)) (bpA3 exI nameMap ord)

/-- The root's register object (the `registers[ex]` of lines 129-131). -/
def bpRoot (exI : INode) (nameMap : List (String × ℕ))
    (varEntries : List (ℕ × ℕ)) (ord : List String) : ℕ :=
  raOf (bpA4 exI nameMap varEntries ord).ra exI.nid

/-- The emission state after walking all operation nodes (lines 133-156),
starting from the store with the root fixed to index 0. -/
def bpES (exI : INode) (nameMap : List (String × ℕ))
    (varEntries : List (ℕ × ℕ)) (ord : List String) : EState :=
  (bpOps exI).foldl
    (emitStep ord.length (bpNodeMap exI varEntries) (bpA4 exI nameMap varEntries ord).ra)
    { store := (fixRoot (bpA4 exI nameMap varEntries ord) (bpRoot exI nameMap varEntries ord)).store,
      seen := [], prog := [] }

/-- Register allocation and emission after input-order resolution (lines
91-166): canonicalize constants, allocate input, temporary and constant
registers, run the reuse pass, force the root's register to index 0, and emit
one instruction per operation node in walk order. -/
def buildProg (exI : INode) (nameMap : List (String × ℕ))
    (varEntries : List (ℕ × ℕ)) (ord : List String) : Prog :=
  { n_inputs := ord.length,
    n_temps := (bpES exI nameMap varEntries ord).seen.length,
    input_names := ord,
    constants := (bpCM exI).1.map Prod.fst,
    program := (bpES exI nameMap varEntries ord).prog,
    store := (bpES exI nameMap varEntries ord).store,
    regAssign := (bpA4 exI nameMap varEntries ord).ra,
    rootRobj := bpRoot exI nameMap varEntries ord,
    nameMap := nameMap,
    constMap := (bpCM exI).1,
    nodeMap := bpNodeMap exI varEntries }

/-- `numexpr` on an already-built expression node (lines 51-166): wrap leaves
into a `copy` operation, canonicalize variable names, resolve and validate the
input order (a non-empty caller order must list exactly the used names — a
name not found in the expression is reported first; an empty or absent order
falls back to the sorted name list), then allocate and emit. -/
def numexprNode (e : ENode) (order : Option (List String)) : Except PErr Prog :=
  let exI := (annot (wrapNode e) 0).1
  let nm := firstSeen (varPairs exI.walkL)
  match order with
  | some (h :: t) =>
      match (h :: t).find? (fun s => (alookup s nm.1).isNone) with
      | some bad => .error (.inputNotFound bad)
      | none =>
        match (nm.1.map Prod.fst).find? (fun s => !(h :: t).contains s) with
        | some missing => .error (.inputNotSpecified missing)
        | none => .ok (buildProg exI nm.1 nm.2 (h :: t))
  | _ => .ok (buildProg exI nm.1 nm.2 (sortNames (nm.1.map Prod.fst)))

/-- `numexpr` on the result of evaluating an expression string: a plain number
(a fully constant text) is wrapped into `OpNode('copy', (number,))`, whose walk
immediately fails with `AttributeError` because a plain Python number has no
`walk` method. -/
def numexprVal (v : PyVal) (order : Option (List String)) : Except PErr Prog :=
  match v with
  | .node e => numexprNode e order
  | .num _ => .error .attributeWalk

/-- `numexpr` on an expression string. -/
def numexprStr (s : String) (order : Option (List String)) : Except PErr Prog :=
  (string2expression s).bind (fun v => numexprVal v order)

/-- The CPython 2 hash of a float whose value is a nonnegative integer: the
integer itself (`hash(3.0) == 3 == hash(3)`). -/
def pyFloatHash (v : ℚ) : ℕ := v.num.toNat

/-- The hash-table slot a key occupies in a CPython 2 dict holding at most five
entries (table size 8): `hash(key) & 7`. -/
def dictSlot8 (v : ℚ) : ℕ := pyFloatHash v % 8

/-- Insert a key into a slot-ordered key list, keeping ascending slot order. -/
def insertBySlot (v : ℚ) : List ℚ → List ℚ
  | [] => [v]
  | w :: ws => if dictSlot8 v ≤ dictSlot8 w then v :: w :: ws else w :: insertBySlot v ws

/-- The iteration order of a CPython 2 dict over at most five float keys whose
values are nonnegative integers occupying pairwise distinct hash slots: the
hash table is scanned in slot order, so iteration yields the keys sorted by
slot index, independent of the order in which they were inserted. This is the
order `enumerate(const_map)` (lines 116-119) sees the canonical constants in,
and it need not agree with the first-seen walk order. -/
def dictIterOrder (ks : List ℚ) : List ℚ := ks.foldr insertBySlot []

/-- The variable names occurring in a source tree, in the post-order the walk
visits them (with multiplicity). -/
def ENode.varNamesE : ENode → List String
  | .var s => [s]
  | .const _ => []
  | .op1 _ a => a.varNamesE
  | .op2 _ a b => a.varNamesE ++ b.varNamesE

/-- The constant values occurring in a source tree, in the post-order the walk
visits them (with multiplicity). -/
def ENode.constValsE : ENode → List ℚ
  | .var _ => []
  | .const v => [v]
  | .op1 _ a => a.constValsE
  | .op2 _ a b => a.constValsE ++ b.constValsE

/-- Pair every list element with its position, starting at `i` (the shape of
Python's `enumerate`). -/
def withIdx (i : ℕ) : List α → List (ℕ × α)
  | [] => []
  | a :: l => (i, a) :: withIdx (i + 1) l

/-- An arbitrary compiled program value, used as cache content in concrete
cache scenarios. -/
def someProg : Prog :=
  { n_inputs := 0, n_temps := 0, input_names := [], constants := [],
    program := [], store := [], regAssign := [], rootRobj := 0,
    nameMap := [], constMap := [], nodeMap := [] }

/-- The compilation cache step of `evaluate` (lines 168-185): look the exact
source string up in `_numexpr_cache`; on a miss compile it and publish the
program under that string, leaving the cache unchanged when compilation
raises.  The returned flag records whether the compiler ran. -/
def evaluateResolve (cache : List (String × Prog)) (s : String) :
    Except PErr Prog × List (String × Prog) × Bool :=
  match alookup s cache with
  | some p => (.ok p, cache, false)
  | none =>
    match numexprStr s none with
    | .ok p => (.ok p, (s, p) :: cache, true)
    | .error e => (.error e, cache, true)

/-! ## Supporting lemmas -/

theorem alookup_append_left [DecidableEq κ] {k : κ} {l1 : List (κ × β)}
    (l2 : List (κ × β)) {v : β} (h : alookup k l1 = some v) :
    alookup k (l1 ++ l2) = some v := by
  induction l1 with
  | nil => simp [alookup] at h
  | cons p t ih =>
      obtain ⟨k1, v1⟩ := p
      by_cases hk : k = k1 <;> simp [alookup, hk] at h ⊢ <;> simp_all

theorem alookup_append_right [DecidableEq κ] {k : κ} {l1 : List (κ × β)}
    (l2 : List (κ × β)) (h : alookup k l1 = none) :
    alookup k (l1 ++ l2) = alookup k l2 := by
  induction l1 with
  | nil => simp
  | cons p t ih =>
      obtain ⟨k1, v1⟩ := p
      by_cases hk : k = k1
      · simp [alookup, hk] at h
      · simp only [alookup, List.cons_append, if_neg hk] at h ⊢
        exact ih h

theorem alookup_eq_none [DecidableEq κ] {k : κ} {l : List (κ × β)} :
    alookup k l = none ↔ k ∉ l.map Prod.fst := by
  induction l with
  | nil => simp [alookup]
  | cons p t ih =>
      obtain ⟨k1, v1⟩ := p
      by_cases hk : k = k1 <;> simp [alookup, hk, ih]

theorem alookup_mem [DecidableEq κ] {k : κ} {l : List (κ × β)} {v : β}
    (h : alookup k l = some v) : (k, v) ∈ l := by
  induction l with
  | nil => simp [alookup] at h
  | cons p t ih =>
      obtain ⟨k1, v1⟩ := p
      by_cases hk : k = k1 <;> simp [alookup, hk] at h
      · simp [hk, h]
      · simp [ih h]

theorem alookup_of_mem_nodup [DecidableEq κ] {k : κ} {l : List (κ × β)} {v : β}
    (hn : (l.map Prod.fst).Nodup) (hm : (k, v) ∈ l) : alookup k l = some v := by
  induction l with
  | nil => simp at hm
  | cons p t ih =>
      obtain ⟨k1, v1⟩ := p
      simp only [List.map_cons, List.nodup_cons] at hn
      rcases List.mem_cons.mp hm with h | h
      · obtain ⟨rfl, rfl⟩ := Prod.mk.injEq .. ▸ h
        simp [alookup]
      · have hk : k ≠ k1 := by
          rintro rfl
          exact hn.1 (List.mem_map.mpr ⟨(k, v), h, rfl⟩)
        simp [alookup, hk, ih hn.2 h]

theorem updStore_cons (robj : ℕ) (f : Register → Register) (k1 : ℕ)
    (v1 : Register) (t : List (ℕ × Register)) :
    updStore robj f ((k1, v1) :: t)
      = (if k1 = robj then (k1, f v1) else (k1, v1)) :: updStore robj f t := by
  by_cases h : k1 = robj <;> simp [updStore, h]

theorem updStore_map_fst (robj : ℕ) (f : Register → Register)
    (st : List (ℕ × Register)) :
    (updStore robj f st).map Prod.fst = st.map Prod.fst := by
  induction st with
  | nil => rfl
  | cons p t ih =>
      obtain ⟨k1, v1⟩ := p
      rw [updStore_cons]
      by_cases h1 : k1 = robj
      · simp [if_pos h1, ih]
      · simp [if_neg h1, ih]

theorem alookup_updStore_ne {k robj : ℕ} (hk : k ≠ robj)
    (f : Register → Register) (st : List (ℕ × Register)) :
    alookup k (updStore robj f st) = alookup k st := by
  induction st with
  | nil => rfl
  | cons p t ih =>
      obtain ⟨k1, v1⟩ := p
      rw [updStore_cons]
      by_cases h1 : k1 = robj
      · rw [if_pos h1]
        have h2 : k ≠ k1 := fun hc => hk (hc.trans h1)
        simp [alookup, h2, ih]
      · rw [if_neg h1]
        by_cases h2 : k = k1 <;> simp [alookup, h2, ih]

theorem alookup_updStore_self (robj : ℕ) (f : Register → Register)
    (st : List (ℕ × Register)) :
    alookup robj (updStore robj f st) = (alookup robj st).map f := by
  induction st with
  | nil => rfl
  | cons p t ih =>
      obtain ⟨k1, v1⟩ := p
      rw [updStore_cons]
      by_cases h1 : k1 = robj
      · subst h1
        rw [if_pos rfl]
        simp [alookup]
      · rw [if_neg h1]
        have h2 : robj ≠ k1 := fun hc => h1 hc.symm
        simp [alookup, h2, ih]

theorem regAt_updStore_ne {k robj : ℕ} (hk : k ≠ robj)
    (f : Register → Register) (st : List (ℕ × Register)) :
    regAt (updStore robj f st) k = regAt st k := by
  simp [regAt, alookup_updStore_ne hk]

theorem regAt_updStore_proj {γ : Type} {π : Register → γ} {f : Register → Register}
    (hf : ∀ r, π (f r) = π r) (robj k : ℕ) (st : List (ℕ × Register)) :
    π (regAt (updStore robj f st) k) = π (regAt st k) := by
  by_cases hk : k = robj
  · subst hk
    simp only [regAt, alookup_updStore_self]
    cases alookup k st with
    | none => rfl
    | some r => simp [hf]
  · rw [regAt_updStore_ne hk]

theorem mem_updStore {pr : ℕ × Register} {robj : ℕ} {f : Register → Register}
    {st : List (ℕ × Register)} (h : pr ∈ updStore robj f st) :
    pr ∈ st ∨ ∃ r, (robj, r) ∈ st ∧ pr = (robj, f r) := by
  obtain ⟨q, hq, hqe⟩ := List.mem_map.mp h
  by_cases hqr : q.1 = robj
  · right
    refine ⟨q.2, ?_, ?_⟩
    · rw [← hqr]
      exact hq
    · rw [← hqe, if_pos hqr, hqr]
  · left
    rw [← hqe, if_neg hqr]
    exact hq

theorem mem_dedupFirstAux [DecidableEq α] {a : α} (l acc : List α) :
    a ∈ dedupFirstAux acc l ↔ a ∈ acc ∨ a ∈ l := by
  induction l generalizing acc with
  | nil => simp [dedupFirstAux]
  | cons b t ih =>
      by_cases hb : b ∈ acc
      · simp only [dedupFirstAux, if_pos hb, ih]
        constructor
        · rintro (h | h)
          · exact Or.inl h
          · exact Or.inr (List.mem_cons_of_mem _ h)
        · rintro (h | h)
          · exact Or.inl h
          · rcases List.mem_cons.mp h with rfl | h
            · exact Or.inl hb
            · exact Or.inr h
      · simp only [dedupFirstAux, if_neg hb, ih]
        simp [List.mem_append, or_assoc]

theorem nodup_dedupFirstAux [DecidableEq α] (l acc : List α) (h : acc.Nodup) :
    (dedupFirstAux acc l).Nodup := by
  induction l generalizing acc with
  | nil => exact h
  | cons b t ih =>
      by_cases hb : b ∈ acc
      · simp only [dedupFirstAux, if_pos hb]
        exact ih acc h
      · simp only [dedupFirstAux, if_neg hb]
        refine ih (acc ++ [b]) ?_
        simp [List.nodup_append, h, hb]

theorem mem_dedupFirst [DecidableEq α] {a : α} {l : List α} :
    a ∈ dedupFirst l ↔ a ∈ l := by
  simp [dedupFirst, mem_dedupFirstAux]

theorem nodup_dedupFirst [DecidableEq α] (l : List α) : (dedupFirst l).Nodup :=
  nodup_dedupFirstAux l [] List.nodup_nil

theorem fs_keys [DecidableEq κ] (ps : List (κ × ℕ)) (acc : List (κ × ℕ))
    (nm : List (ℕ × ℕ)) :
    ((firstSeenAux acc nm ps).1).map Prod.fst
      = dedupFirstAux (acc.map Prod.fst) (ps.map Prod.fst) := by
  induction ps generalizing acc nm with
  | nil => rfl
  | cons p rest ih =>
      obtain ⟨k, i⟩ := p
      cases hl : alookup k acc with
      | some c =>
          have hk : k ∈ acc.map Prod.fst :=
            List.mem_map.mpr ⟨(k, c), alookup_mem hl, rfl⟩
          simp only [firstSeenAux, hl, ih, List.map_cons, dedupFirstAux, if_pos hk]
      | none =>
          have hk : k ∉ acc.map Prod.fst := alookup_eq_none.mp hl
          simp only [firstSeenAux, hl, ih, List.map_cons, dedupFirstAux, if_neg hk,
            List.map_append, List.map_cons, List.map_nil]

theorem fs_sublist [DecidableEq κ] (ps : List (κ × ℕ)) (acc : List (κ × ℕ))
    (nm : List (ℕ × ℕ)) :
    ∃ l, (firstSeenAux acc nm ps).1 = acc ++ l ∧ l.Sublist ps := by
  induction ps generalizing acc nm with
  | nil => exact ⟨[], by simp [firstSeenAux], List.nil_sublist _⟩
  | cons p rest ih =>
      obtain ⟨k, i⟩ := p
      cases hl : alookup k acc with
      | some c =>
          obtain ⟨l, heq, hsub⟩ := ih acc (nm ++ [(i, c)])
          exact ⟨l, by simpa [firstSeenAux, hl] using heq, hsub.cons _⟩
      | none =>
          obtain ⟨l, heq, hsub⟩ := ih (acc ++ [(k, i)]) (nm ++ [(i, i)])
          refine ⟨(k, i) :: l, ?_, hsub.cons₂ _⟩
          simpa [firstSeenAux, hl, List.append_assoc] using heq

theorem fs_nm_keys [DecidableEq κ] (ps : List (κ × ℕ)) (acc : List (κ × ℕ))
    (nm : List (ℕ × ℕ)) :
    ((firstSeenAux acc nm ps).2).map Prod.fst
      = nm.map Prod.fst ++ ps.map Prod.snd := by
  induction ps generalizing acc nm with
  | nil => simp [firstSeenAux]
  | cons p rest ih =>
      obtain ⟨k, i⟩ := p
      cases hl : alookup k acc with
      | some c => simp [firstSeenAux, hl, ih]
      | none => simp [firstSeenAux, hl, ih]

theorem annot_next (e : ENode) (n : ℕ) : (annot e n).2 = n + e.sizeE := by
  induction e generalizing n with
  | var s => simp [annot, ENode.sizeE]
  | const v => simp [annot, ENode.sizeE]
  | op1 oc a ih =>
      simp only [annot, ENode.sizeE, ih]
      omega
  | op2 oc a b iha ihb =>
      simp only [annot, ENode.sizeE, iha, ihb]
      omega

theorem walkL_map_nid (e : ENode) (n : ℕ) :
    ((annot e n).1).walkL.map INode.nid = List.range' n e.sizeE := by
  induction e generalizing n with
  | var s => simp [annot, INode.walkL, INode.nid, ENode.sizeE, List.range']
  | const v => simp [annot, INode.walkL, INode.nid, ENode.sizeE, List.range']
  | op1 oc a ih =>
      simp only [annot, INode.walkL, ENode.sizeE, List.map_append, ih, annot_next,
        List.map_cons, List.map_nil, INode.nid]
      have h1 : n + a.sizeE = n + 1 * a.sizeE := by omega
      rw [show a.sizeE + 1 = 1 + a.sizeE by omega, h1]
      exact List.range'_append n a.sizeE 1 1
  | op2 oc a b iha ihb =>
      simp only [annot, INode.walkL, ENode.sizeE, List.map_append, iha, ihb, annot_next,
        List.map_cons, List.map_nil, INode.nid]
      have h2 : List.range' (n + a.sizeE) b.sizeE ++ [n + a.sizeE + b.sizeE]
          = List.range' (n + a.sizeE) (b.sizeE + 1) := by
        rw [List.range'_concat]
        simp [Nat.one_mul]
      rw [List.append_assoc, h2,
        show n + a.sizeE = n + 1 * a.sizeE by omega,
        List.range'_append n a.sizeE (b.sizeE + 1) 1]
      congr 1
      omega

theorem walk_nids_nodup (e : ENode) (n : ℕ) :
    (((annot e n).1).walkL.map INode.nid).Nodup := by
  rw [walkL_map_nid]
  exact List.nodup_range' n e.sizeE

theorem self_mem_walkL (x : INode) : x ∈ x.walkL := by
  cases x <;> simp [INode.walkL]

theorem mem_varPairs {l : List INode} {s : String} {i : ℕ} :
    (s, i) ∈ varPairs l ↔ INode.var i s ∈ l := by
  simp only [varPairs, List.mem_filterMap]
  constructor
  · rintro ⟨a, ha, he⟩
    cases a <;> simp at he
    obtain ⟨rfl, rfl⟩ := he
    exact ha
  · intro h
    exact ⟨INode.var i s, h, rfl⟩

theorem mem_constPairs {l : List INode} {v : ℚ} {i : ℕ} :
    (v, i) ∈ constPairs l ↔ INode.const i v ∈ l := by
  simp only [constPairs, List.mem_filterMap]
  constructor
  · rintro ⟨a, ha, he⟩
    cases a <;> simp at he
    obtain ⟨rfl, rfl⟩ := he
    exact ha
  · intro h
    exact ⟨INode.const i v, h, rfl⟩

theorem varPairs_append (l1 l2 : List INode) :
    varPairs (l1 ++ l2) = varPairs l1 ++ varPairs l2 := by
  simp [varPairs]

theorem constPairs_append (l1 l2 : List INode) :
    constPairs (l1 ++ l2) = constPairs l1 ++ constPairs l2 := by
  simp [constPairs]

theorem varPairs_fst (e : ENode) (n : ℕ) :
    (varPairs ((annot e n).1.walkL)).map Prod.fst = e.varNamesE := by
  induction e generalizing n with
  | var s => simp [annot, INode.walkL, varPairs, ENode.varNamesE]
  | const v => simp [annot, INode.walkL, varPairs, ENode.varNamesE]
  | op1 oc a ih =>
      simp only [annot, INode.walkL, varPairs_append, List.map_append, ih]
      simp [varPairs, ENode.varNamesE]
  | op2 oc a b iha ihb =>
      simp only [annot, INode.walkL, varPairs_append, List.map_append, iha, ihb]
      simp [varPairs, ENode.varNamesE]

theorem constPairs_fst (e : ENode) (n : ℕ) :
    (constPairs ((annot e n).1.walkL)).map Prod.fst = e.constValsE := by
  induction e generalizing n with
  | var s => simp [annot, INode.walkL, constPairs, ENode.constValsE]
  | const v => simp [annot, INode.walkL, constPairs, ENode.constValsE]
  | op1 oc a ih =>
      simp only [annot, INode.walkL, constPairs_append, List.map_append, ih]
      simp [constPairs, ENode.constValsE]
  | op2 oc a b iha ihb =>
      simp only [annot, INode.walkL, constPairs_append, List.map_append, iha, ihb]
      simp [constPairs, ENode.constValsE]

theorem walk_nid_inj {walk : List INode} (hw : (walk.map INode.nid).Nodup)
    {o x : INode} (ho : o ∈ walk) (hx : x ∈ walk) (h : o.nid = x.nid) : o = x :=
  List.inj_on_of_nodup_map hw ho hx h

theorem varPairs_snd_leaf {l : List INode} {i : ℕ}
    (h : i ∈ (varPairs l).map Prod.snd) :
    ∃ x ∈ l, x.nid = i ∧ x.isOpN = false := by
  obtain ⟨⟨s, j⟩, hm, he⟩ := List.mem_map.mp h
  subst he
  exact ⟨INode.var j s, mem_varPairs.mp hm, rfl, rfl⟩

theorem constPairs_snd_leaf {l : List INode} {i : ℕ}
    (h : i ∈ (constPairs l).map Prod.snd) :
    ∃ x ∈ l, x.nid = i ∧ x.isOpN = false := by
  obtain ⟨⟨v, j⟩, hm, he⟩ := List.mem_map.mp h
  subst he
  exact ⟨INode.const j v, mem_constPairs.mp hm, rfl, rfl⟩

theorem insertSorted_perm (s : String) (l : List String) :
    (insertSorted s l).Perm (s :: l) := by
  induction l with
  | nil => exact List.Perm.refl _
  | cons t ts ih =>
      by_cases h : strLe s t
      · simp [insertSorted, h]
      · simp only [insertSorted, if_neg h]
        exact (ih.cons t).trans (List.Perm.swap s t ts)

theorem sortNames_perm (l : List String) : (sortNames l).Perm l := by
  induction l with
  | nil => exact List.Perm.refl _
  | cons s ss ih => exact (insertSorted_perm s (sortNames ss)).trans (ih.cons s)

theorem mem_sortNames {a : String} {l : List String} :
    a ∈ sortNames l ↔ a ∈ l :=
  (sortNames_perm l).mem_iff

theorem nodup_sortNames {l : List String} (h : l.Nodup) :
    (sortNames l).Nodup :=
  ((sortNames_perm l).nodup_iff).mpr h

theorem inpStore_keys (next i : ℕ) (ord : List String) :
    (inpStore next i ord).map Prod.fst = List.range' next ord.length := by
  induction ord generalizing next i with
  | nil => rfl
  | cons s rest ih => simp [inpStore, List.range', ih]

theorem mem_inpStore {next i : ℕ} {ord : List String} {pr : ℕ × Register}
    (h : pr ∈ inpStore next i ord) :
    pr.2.temporary = false ∧ pr.2.constant = false ∧ pr.2.name.isSome = true
      ∧ ∃ m, pr.2.n = some (m + 1) := by
  induction ord generalizing next i with
  | nil => simp [inpStore] at h
  | cons s rest ih =>
      rcases List.mem_cons.mp h with rfl | h
      · exact ⟨rfl, rfl, rfl, i, rfl⟩
      · exact ih h

theorem inpStore_snd (next i : ℕ) (ord : List String) :
    (inpStore next i ord).map Prod.snd
      = (withIdx i ord).map (fun pr =>
          { n := some (pr.1 + 1), name := some pr.2, temporary := false,
            constant := false, value := none }) := by
  induction ord generalizing next i with
  | nil => rfl
  | cons s rest ih => simp [inpStore, withIdx, ih]

theorem tmpStore_keys (next : ℕ) (ops : List INode) :
    (tmpStore next ops).map Prod.fst = List.range' next ops.length := by
  induction ops generalizing next with
  | nil => rfl
  | cons o rest ih => simp [tmpStore, List.range', ih]

theorem mem_tmpStore {next : ℕ} {ops : List INode} {pr : ℕ × Register}
    (h : pr ∈ tmpStore next ops) :
    pr.2 = { n := none, name := none, temporary := true,
             constant := false, value := none } := by
  induction ops generalizing next with
  | nil => simp [tmpStore] at h
  | cons o rest ih =>
      rcases List.mem_cons.mp h with rfl | h
      · rfl
      · exact ih h

theorem tmpStore_alookup {next j : ℕ} {ops : List INode} (hj : j < ops.length) :
    alookup (next + j) (tmpStore next ops)
      = some { n := none, name := none, temporary := true,
               constant := false, value := none } := by
  induction ops generalizing next j with
  | nil => simp at hj
  | cons o rest ih =>
      cases j with
      | zero => simp [tmpStore, alookup]
      | succ j =>
          have hj' : j < rest.length := by simpa using hj
          have h1 : next + (j + 1) = next + 1 + j := by omega
          have hne : next + 1 + j ≠ next := by omega
          rw [h1]
          simp only [tmpStore, alookup, if_neg hne]
          exact ih hj'

theorem constStore_keys (next i : ℕ) (cm : List (ℚ × ℕ)) :
    (constStore next i cm).map Prod.fst = List.range' next cm.length := by
  induction cm generalizing next i with
  | nil => rfl
  | cons kv rest ih => simp [constStore, List.range', ih]

theorem mem_constStore {next i : ℕ} {cm : List (ℚ × ℕ)} {pr : ℕ × Register}
    (h : pr ∈ constStore next i cm) :
    pr.2.temporary = false ∧ pr.2.constant = true ∧ pr.2.name = none := by
  induction cm generalizing next i with
  | nil => simp [constStore] at h
  | cons kv rest ih =>
      rcases List.mem_cons.mp h with rfl | h
      · exact ⟨rfl, rfl, rfl⟩
      · exact ih h

theorem constStore_alookup {next i j : ℕ} {cm : List (ℚ × ℕ)}
    (hj : j < cm.length) :
    alookup (next + j) (constStore next i cm)
      = some { n := some (i + j), name := none, temporary := false,
               constant := true, value := some (cm.get ⟨j, hj⟩).1 } := by
  induction cm generalizing next i j with
  | nil => simp at hj
  | cons kv rest ih =>
      cases j with
      | zero => simp [constStore, alookup]
      | succ j =>
          have hj' : j < rest.length := by simpa using hj
          have h1 : next + (j + 1) = next + 1 + j := by omega
          have h2 : i + (j + 1) = i + 1 + j := by omega
          have h3 : (kv :: rest).get ⟨j + 1, hj⟩ = rest.get ⟨j, hj'⟩ := rfl
          rw [h1, h2, h3]
          simp only [constStore, alookup, if_neg (show next + 1 + j ≠ next by omega)]
          exact ih hj'

theorem tmpRA_keys (next : ℕ) (ops : List INode) :
    (tmpRA next ops).map Prod.fst = (ops.map INode.nid).reverse := by
  induction ops generalizing next with
  | nil => rfl
  | cons o rest ih => simp [tmpRA, ih]

theorem constRA_keys (next : ℕ) (cm : List (ℚ × ℕ)) :
    (constRA next cm).map Prod.fst = (cm.map Prod.snd).reverse := by
  induction cm generalizing next with
  | nil => rfl
  | cons kv rest ih => simp [constRA, ih]

theorem inpRA_keys_sub {nameMap : List (String × ℕ)} {next : ℕ}
    {ord : List String} {k : ℕ} (h : k ∈ (inpRA nameMap next ord).map Prod.fst) :
    ∃ s ∈ ord, (alookup s nameMap).getD 0 = k := by
  induction ord generalizing next with
  | nil => simp [inpRA] at h
  | cons s rest ih =>
      simp only [inpRA, List.map_append, List.mem_append] at h
      rcases h with h | h
      · obtain ⟨t, ht, he⟩ := ih h
        exact ⟨t, List.mem_cons_of_mem _ ht, he⟩
      · simp at h
        exact ⟨s, List.mem_cons_self .., h.symm⟩

theorem tmpRA_alookup {next j : ℕ} {ops : List INode}
    (hn : (ops.map INode.nid).Nodup) (hj : j < ops.length) :
    alookup ((ops.get ⟨j, hj⟩).nid) (tmpRA next ops) = some (next + j) := by
  induction ops generalizing next j with
  | nil => simp at hj
  | cons o rest ih =>
      simp only [List.map_cons, List.nodup_cons] at hn
      cases j with
      | zero =>
          have hnone : alookup o.nid (tmpRA (next + 1) rest) = none := by
            rw [alookup_eq_none, tmpRA_keys]
            simpa using hn.1
          simp only [tmpRA, List.get]
          rw [alookup_append_right _ hnone]
          simp [alookup]
      | succ j =>
          have hj' : j < rest.length := by simpa using hj
          have hih : alookup ((rest.get ⟨j, hj'⟩).nid) (tmpRA (next + 1) rest)
              = some (next + 1 + j) := ih hn.2 hj'
          have h3 : (o :: rest).get ⟨j + 1, hj⟩ = rest.get ⟨j, hj'⟩ := rfl
          rw [h3]
          simp only [tmpRA]
          rw [alookup_append_left _ hih]
          congr 1
          omega

theorem constRA_alookup {next j : ℕ} {cm : List (ℚ × ℕ)}
    (hn : (cm.map Prod.snd).Nodup) (hj : j < cm.length) :
    alookup ((cm.get ⟨j, hj⟩).2) (constRA next cm) = some (next + j) := by
  induction cm generalizing next j with
  | nil => simp at hj
  | cons kv rest ih =>
      simp only [List.map_cons, List.nodup_cons] at hn
      cases j with
      | zero =>
          have hnone : alookup kv.2 (constRA (next + 1) rest) = none := by
            rw [alookup_eq_none, constRA_keys]
            simpa using hn.1
          simp only [constRA, List.get]
          rw [alookup_append_right _ hnone]
          simp [alookup]
      | succ j =>
          have hj' : j < rest.length := by simpa using hj
          have hih : alookup ((rest.get ⟨j, hj'⟩).2) (constRA (next + 1) rest)
              = some (next + 1 + j) := ih hn.2 hj'
          have h3 : (kv :: rest).get ⟨j + 1, hj⟩ = rest.get ⟨j, hj'⟩ := rfl
          rw [h3]
          simp only [constRA]
          rw [alookup_append_left _ hih]
          congr 1
          omega

theorem bpA3_store (exI : INode) (nameMap : List (String × ℕ)) (ord : List String) :
    (bpA3 exI nameMap ord).store
      = (inpStore 0 0 ord ++ tmpStore ord.length (bpOps exI))
          ++ constStore (ord.length + (bpOps exI).length) 0 (bpCM exI).1 := by
  simp [bpA3, allocConsts, allocTemps, allocInputs]

theorem bpA3_ra (exI : INode) (nameMap : List (String × ℕ)) (ord : List String) :
    (bpA3 exI nameMap ord).ra
      = constRA (ord.length + (bpOps exI).length) (bpCM exI).1
          ++ (tmpRA ord.length (bpOps exI) ++ inpRA nameMap 0 ord) := by
  simp [bpA3, allocConsts, allocTemps, allocInputs]

theorem reuseStep_store (nm : List (ℕ × ℕ)) (a : AState) (o : INode) :
    (reuseStep nm a o).store = a.store := by
  unfold reuseStep
  split <;> rfl

theorem reuse_fold_store (nm : List (ℕ × ℕ)) (l : List INode) (a : AState) :
    (l.foldl (reuseStep nm) a).store = a.store := by
  induction l generalizing a with
  | nil => rfl
  | cons o rest ih => rw [List.foldl_cons, ih, reuseStep_store]

theorem reuse_fold_ra (nm : List (ℕ × ℕ)) (l : List INode) (a : AState) :
    ∃ m, (l.foldl (reuseStep nm) a).ra = m ++ a.ra
      ∧ ∀ pr ∈ m, (∃ o ∈ l, pr.1 = o.nid)
          ∧ (regAt a.store pr.2).temporary = true := by
  induction l generalizing a with
  | nil => exact ⟨[], rfl, by simp⟩
  | cons o rest ih =>
      rw [List.foldl_cons]
      obtain ⟨m, hm, hp⟩ := ih (reuseStep nm a o)
      have hst : (reuseStep nm a o).store = a.store := reuseStep_store nm a o
      unfold reuseStep at hm hp ⊢
      cases hfind : o.args.find?
          (fun arg => (regAt a.store (raOf a.ra (nodeOf nm arg.nid))).temporary) with
      | none =>
          rw [hfind] at hm hp
          refine ⟨m, hm, fun pr hpr => ?_⟩
          obtain ⟨⟨o', ho', he⟩, ht⟩ := hp pr hpr
          exact ⟨⟨o', List.mem_cons_of_mem _ ho', he⟩, ht⟩
      | some arg =>
          rw [hfind] at hm hp
          refine ⟨m ++ [(o.nid, raOf a.ra (nodeOf nm arg.nid))], by
            simpa [List.append_assoc] using hm, fun pr hpr => ?_⟩
          rcases List.mem_append.mp hpr with hpr | hpr
          · obtain ⟨⟨o', ho', he⟩, ht⟩ := hp pr hpr
            exact ⟨⟨o', List.mem_cons_of_mem _ ho', he⟩, by simpa using ht⟩
          · simp only [List.mem_singleton] at hpr
            subst hpr
            refine ⟨⟨o, List.mem_cons_self .., rfl⟩, ?_⟩
            simpa using List.find?_some hfind

/-- The temporary register record created by the temporary-allocation pass. -/
def tempRec : Register :=
  { n := none, name := none, temporary := true, constant := false, value := none }

theorem st0_alookup_tmp {exI : INode} {nameMap : List (String × ℕ)}
    {ord : List String} {j : ℕ} (hj : j < (bpOps exI).length) :
    alookup (ord.length + j) (bpA3 exI nameMap ord).store = some tempRec := by
  rw [bpA3_store]
  have h1 : alookup (ord.length + j) (inpStore 0 0 ord) = none := by
    rw [alookup_eq_none, inpStore_keys]
    intro hmem
    have := (List.mem_range'_1).mp hmem
    omega
  have h2 : alookup (ord.length + j) (tmpStore ord.length (bpOps exI))
      = some tempRec := tmpStore_alookup hj
  rw [alookup_append_left _ (by rw [alookup_append_right _ h1]; exact h2)]

theorem st0_alookup_const {exI : INode} {nameMap : List (String × ℕ)}
    {ord : List String} {j : ℕ} (hj : j < (bpCM exI).1.length) :
    alookup (ord.length + (bpOps exI).length + j) (bpA3 exI nameMap ord).store
      = some { n := some j, name := none, temporary := false,
               constant := true, value := some (((bpCM exI).1.get ⟨j, hj⟩).1) } := by
  rw [bpA3_store]
  have h1 : alookup (ord.length + (bpOps exI).length + j)
      (inpStore 0 0 ord ++ tmpStore ord.length (bpOps exI)) = none := by
    rw [alookup_eq_none, List.map_append, inpStore_keys, tmpStore_keys]
    intro hmem
    rcases List.mem_append.mp hmem with h | h
    · have := (List.mem_range'_1).mp h
      omega
    · have := (List.mem_range'_1).mp h
      omega
  rw [alookup_append_right _ h1]
  have := @constStore_alookup (ord.length + (bpOps exI).length) 0 j (bpCM exI).1 hj
  simpa using this

theorem temp_robj_mem_tmpKeys {exI : INode} {nameMap : List (String × ℕ)}
    {ord : List String} {robj : ℕ}
    (h : (regAt (bpA3 exI nameMap ord).store robj).temporary = true) :
    robj ∈ List.range' ord.length (bpOps exI).length := by
  rcases hl : alookup robj (bpA3 exI nameMap ord).store with _ | r
  · rw [regAt, hl] at h
    simp [Register.missing] at h
  · have hmem := alookup_mem hl
    rw [regAt, hl] at h
    simp only [Option.getD_some] at h
    rw [bpA3_store] at hmem
    rcases List.mem_append.mp hmem with hm | hm
    · rcases List.mem_append.mp hm with hm | hm
      · have := mem_inpStore hm
        rw [this.1] at h
        exact absurd h (by simp)
      · have hk : robj ∈ (tmpStore ord.length (bpOps exI)).map Prod.fst :=
          List.mem_map.mpr ⟨(robj, r), hm, rfl⟩
        rwa [tmpStore_keys] at hk
    · have := mem_constStore hm
      rw [this.1] at h
      exact absurd h (by simp)

theorem ops_sublist (exI : INode) : (bpOps exI).Sublist exI.walkL :=
  List.filter_sublist _

theorem mem_ops {exI : INode} {o : INode} (h : o ∈ bpOps exI) :
    o ∈ exI.walkL ∧ o.isOpN = true := by
  have := List.mem_filter.mp h
  exact ⟨this.1, this.2⟩

theorem ops_nids_nodup (exI : INode) (hw : (exI.walkL.map INode.nid).Nodup) :
    ((bpOps exI).map INode.nid).Nodup :=
  (((ops_sublist exI).map INode.nid)).nodup hw

theorem constPairs_snd_sublist (l : List INode) :
    ((constPairs l).map Prod.snd).Sublist (l.map INode.nid) := by
  induction l with
  | nil => simp [constPairs]
  | cons x rest ih =>
      cases x with
      | const i v =>
          simpa [constPairs, INode.nid] using ih.cons₂ i
      | var i s => simpa [constPairs, INode.nid] using ih.cons i
      | op1 i oc a => simpa [constPairs, INode.nid] using ih.cons i
      | op2 i oc a b => simpa [constPairs, INode.nid] using ih.cons i

theorem cm_mem_constPairs {exI : INode} {pr : ℚ × ℕ} (h : pr ∈ (bpCM exI).1) :
    pr ∈ constPairs exI.walkL := by
  obtain ⟨l, heq, hsub⟩ := fs_sublist (constPairs exI.walkL) [] []
  have : (bpCM exI).1 = l := by simpa [bpCM, firstSeen] using heq
  rw [this] at h
  exact hsub.mem h

theorem cm_snd_nodup (exI : INode) (hw : (exI.walkL.map INode.nid).Nodup) :
    ((bpCM exI).1.map Prod.snd).Nodup := by
  obtain ⟨l, heq, hsub⟩ := fs_sublist (constPairs exI.walkL) [] []
  have he : (bpCM exI).1 = l := by simpa [bpCM, firstSeen] using heq
  rw [he]
  exact ((hsub.map Prod.snd).trans (constPairs_snd_sublist _)).nodup hw

theorem opid_not_cm_snd {exI : INode} (hw : (exI.walkL.map INode.nid).Nodup)
    {o : INode} (ho : o ∈ bpOps exI) :
    o.nid ∉ ((bpCM exI).1.map Prod.snd) := by
  intro hmem
  obtain ⟨pr, hpr, he⟩ := List.mem_map.mp hmem
  have h1 : pr ∈ constPairs exI.walkL := cm_mem_constPairs hpr
  obtain ⟨x, hx, hxn, hxop⟩ := constPairs_snd_leaf
    (List.mem_map.mpr ⟨pr, h1, rfl⟩)
  obtain ⟨how, hop⟩ := mem_ops ho
  have : o = x := walk_nid_inj hw how hx (by rw [hxn, he])
  rw [this, hxop] at hop
  exact absurd hop (by simp)

theorem opid_ra0 {exI : INode} {nameMap : List (String × ℕ)} {ord : List String}
    (hw : (exI.walkL.map INode.nid).Nodup) {j : ℕ} (hj : j < (bpOps exI).length) :
    alookup (((bpOps exI).get ⟨j, hj⟩).nid) (bpA3 exI nameMap ord).ra
      = some (ord.length + j) := by
  rw [bpA3_ra]
  have hcon : alookup (((bpOps exI).get ⟨j, hj⟩).nid)
      (constRA (ord.length + (bpOps exI).length) (bpCM exI).1) = none := by
    rw [alookup_eq_none, constRA_keys, List.mem_reverse]
    exact opid_not_cm_snd hw (List.get_mem _ _ hj)
  rw [alookup_append_right _ hcon]
  exact alookup_append_left _ (tmpRA_alookup (ops_nids_nodup exI hw) hj)

theorem opid_a4 {exI : INode} (nameMap : List (String × ℕ))
    (varEntries : List (ℕ × ℕ)) (ord : List String)
    (hw : (exI.walkL.map INode.nid).Nodup) {j : ℕ} (hj : j < (bpOps exI).length) :
    ∃ robj, alookup (((bpOps exI).get ⟨j, hj⟩).nid)
        (bpA4 exI nameMap varEntries ord).ra = some robj
      ∧ robj ∈ List.range' ord.length (bpOps exI).length := by
  obtain ⟨m, hm, hp⟩ :=
    reuse_fold_ra (bpNodeMap exI varEntries) (bpOps exI) (bpA3 exI nameMap ord)
  rw [bpA4, hm]
  cases hml : alookup (((bpOps exI).get ⟨j, hj⟩).nid) m with
  | some robj =>
      refine ⟨robj, alookup_append_left _ hml, ?_⟩
      exact temp_robj_mem_tmpKeys (hp _ (alookup_mem hml)).2
  | none =>
      refine ⟨ord.length + j, ?_, ?_⟩
      · rw [alookup_append_right _ hml]
        exact opid_ra0 hw hj
      · rw [List.mem_range'_1]
        omega

theorem nodeOf_opid {exI : INode} {varEntries : List (ℕ × ℕ)}
    (hw : (exI.walkL.map INode.nid).Nodup)
    (hv : varEntries = (firstSeen (varPairs exI.walkL)).2)
    {o : INode} (ho : o ∈ bpOps exI) :
    nodeOf (bpNodeMap exI varEntries) o.nid = o.nid := by
  have hnone : alookup o.nid (bpNodeMap exI varEntries) = none := by
    rw [alookup_eq_none, bpNodeMap, List.map_append]
    intro hmem
    obtain ⟨how, hop⟩ := mem_ops ho
    rcases List.mem_append.mp hmem with h | h
    · rw [hv] at h
      rw [show (firstSeen (varPairs exI.walkL)).2
            = (firstSeenAux [] [] (varPairs exI.walkL)).2 from rfl] at h
      rw [fs_nm_keys] at h
      simp only [List.map_nil, List.nil_append] at h
      obtain ⟨x, hx, hxn, hxop⟩ := varPairs_snd_leaf h
      have : o = x := walk_nid_inj hw how hx hxn.symm
      rw [this, hxop] at hop
      exact absurd hop (by simp)
    · rw [show (bpCM exI).2 = (firstSeenAux [] [] (constPairs exI.walkL)).2 from rfl,
        fs_nm_keys] at h
      simp only [List.map_nil, List.nil_append] at h
      obtain ⟨x, hx, hxn, hxop⟩ := constPairs_snd_leaf h
      have : o = x := walk_nid_inj hw how hx hxn.symm
      rw [this, hxop] at hop
      exact absurd hop (by simp)
  simp [nodeOf, hnone]

theorem touch_fst (nInputs : ℕ) (nm ra : List (ℕ × ℕ)) (es : EState) (aid : ℕ) :
    (touch nInputs nm ra es aid).1 = raOf ra (nodeOf nm aid) := by
  simp only [touch]
  split <;> rfl

theorem touch_store_proj {γ : Type} {π : Register → γ}
    (hπ : ∀ r x, π { r with n := x } = π r)
    (nInputs : ℕ) (nm ra : List (ℕ × ℕ)) (es : EState) (aid k : ℕ) :
    π (regAt (touch nInputs nm ra es aid).2.store k) = π (regAt es.store k) := by
  simp only [touch]
  split
  · exact regAt_updStore_proj (fun r => hπ r _) _ k es.store
  · rfl

theorem touch_prog (nInputs : ℕ) (nm ra : List (ℕ × ℕ)) (es : EState) (aid : ℕ) :
    (touch nInputs nm ra es aid).2.prog = es.prog := by
  simp only [touch]
  split <;> rfl

theorem touch_store_temporary (nInputs : ℕ) (nm ra : List (ℕ × ℕ)) (es : EState)
    (aid k : ℕ) :
    (regAt (touch nInputs nm ra es aid).2.store k).temporary
      = (regAt es.store k).temporary :=
  @touch_store_proj Bool Register.temporary (fun _ _ => rfl) nInputs nm ra es aid k

theorem touch_store_notmp {nInputs : ℕ} {nm ra : List (ℕ × ℕ)} {es : EState}
    {aid k : ℕ} (hk : (regAt es.store k).temporary = false) :
    regAt (touch nInputs nm ra es aid).2.store k = regAt es.store k := by
  simp only [touch]
  split
  · rename_i hcond
    have hne : k ≠ raOf ra (nodeOf nm aid) := by
      intro he
      rw [← he] at hcond
      rw [hcond.2] at hk
      exact absurd hk (by simp)
    dsimp only
    exact regAt_updStore_ne hne _ _
  · rfl

/-- The register-store property behind the output-register invariant: every
register object is the root's, a constant register, an unnumbered temporary, or
carries a strictly positive index. -/
def destOK (root : ℕ) (pr : ℕ × Register) : Prop :=
  pr.1 = root ∨ pr.2.constant = true ∨ pr.2.n = none ∨ ∃ m, pr.2.n = some (m + 1)

theorem touch_destOK {root nInputs : ℕ} {nm ra : List (ℕ × ℕ)} {es : EState}
    {aid : ℕ} (h : ∀ pr ∈ es.store, destOK root pr) :
    ∀ pr ∈ (touch nInputs nm ra es aid).2.store, destOK root pr := by
  simp only [touch]
  split
  · intro pr hpr
    dsimp only at hpr
    rcases mem_updStore hpr with hm | ⟨r, hr, he⟩
    · exact h pr hm
    · subst he
      refine Or.inr (Or.inr (Or.inr ⟨nInputs + es.seen.length, ?_⟩))
      simp only []
      congr 1
      omega
  · exact h

theorem emitStep_store_proj {γ : Type} {π : Register → γ}
    (hπ : ∀ r x, π { r with n := x } = π r)
    (nInputs : ℕ) (nm ra : List (ℕ × ℕ)) (es : EState) (o : INode) (k : ℕ) :
    π (regAt (emitStep nInputs nm ra es o).store k) = π (regAt es.store k) := by
  cases o with
  | var i s => rfl
  | const i v => rfl
  | op1 i oc x =>
      simp only [emitStep]
      rw [touch_store_proj hπ, touch_store_proj hπ]
  | op2 i oc x y =>
      simp only [emitStep]
      rw [touch_store_proj hπ, touch_store_proj hπ, touch_store_proj hπ]

theorem emitStep_store_temporary (nInputs : ℕ) (nm ra : List (ℕ × ℕ))
    (es : EState) (o : INode) (k : ℕ) :
    (regAt (emitStep nInputs nm ra es o).store k).temporary
      = (regAt es.store k).temporary :=
  @emitStep_store_proj Bool Register.temporary (fun _ _ => rfl) nInputs nm ra es o k

theorem emitStep_store_notmp {nInputs : ℕ} {nm ra : List (ℕ × ℕ)} {es : EState}
    {o : INode} {k : ℕ} (hk : (regAt es.store k).temporary = false) :
    regAt (emitStep nInputs nm ra es o).store k = regAt es.store k := by
  cases o with
  | var i s => rfl
  | const i v => rfl
  | op1 i oc x =>
      simp only [emitStep]
      have h1 : (regAt (touch nInputs nm ra es i).2.store k).temporary = false := by
        rw [touch_store_temporary]
        exact hk
      rw [touch_store_notmp h1, touch_store_notmp hk]
  | op2 i oc x y =>
      simp only [emitStep]
      have h1 : (regAt (touch nInputs nm ra es i).2.store k).temporary = false := by
        rw [touch_store_temporary]
        exact hk
      have h2 : (regAt (touch nInputs nm ra (touch nInputs nm ra es i).2 x.nid).2.store k).temporary
          = false := by
        rw [touch_store_temporary, touch_store_temporary]
        exact hk
      rw [touch_store_notmp h2, touch_store_notmp h1, touch_store_notmp hk]

theorem emitStep_destOK {root nInputs : ℕ} {nm ra : List (ℕ × ℕ)} {es : EState}
    {o : INode} (h : ∀ pr ∈ es.store, destOK root pr) :
    ∀ pr ∈ (emitStep nInputs nm ra es o).store, destOK root pr := by
  cases o with
  | var i s => exact h
  | const i v => exact h
  | op1 i oc x =>
      simp only [emitStep]
      exact touch_destOK (touch_destOK h)
  | op2 i oc x y =>
      simp only [emitStep]
      exact touch_destOK (touch_destOK (touch_destOK h))

theorem emitStep_prog (nInputs : ℕ) (nm ra : List (ℕ × ℕ)) (es : EState)
    (o : INode) :
    (emitStep nInputs nm ra es o).prog = es.prog
    ∨ ∃ instr, (emitStep nInputs nm ra es o).prog = es.prog ++ [instr]
        ∧ instr.dest = raOf ra (nodeOf nm o.nid) := by
  cases o with
  | var i s => exact Or.inl rfl
  | const i v => exact Or.inl rfl
  | op1 i oc x =>
      refine Or.inr ⟨⟨oc, (touch nInputs nm ra es i).1,
        (touch nInputs nm ra (touch nInputs nm ra es i).2 x.nid).1, none⟩, ?_, ?_⟩
      · simp only [emitStep]
        rw [touch_prog, touch_prog]
      · rw [touch_fst]
        rfl
  | op2 i oc x y =>
      refine Or.inr ⟨⟨oc, (touch nInputs nm ra es i).1,
        (touch nInputs nm ra (touch nInputs nm ra es i).2 x.nid).1,
        some (touch nInputs nm ra
          (touch nInputs nm ra (touch nInputs nm ra es i).2 x.nid).2 y.nid).1⟩, ?_, ?_⟩
      · simp only [emitStep]
        rw [touch_prog, touch_prog, touch_prog]
      · rw [touch_fst]
        rfl

theorem emitStep_prog_prefix (nInputs : ℕ) (nm ra : List (ℕ × ℕ)) (es : EState)
    (o : INode) {i : Instr} (h : i ∈ (emitStep nInputs nm ra es o).prog) :
    i ∈ es.prog ∨ i.dest = raOf ra (nodeOf nm o.nid) := by
  rcases emitStep_prog nInputs nm ra es o with he | ⟨instr, he, hd⟩
  · rw [he] at h
    exact Or.inl h
  · rw [he] at h
    rcases List.mem_append.mp h with h | h
    · exact Or.inl h
    · simp only [List.mem_singleton] at h
      subst h
      exact Or.inr hd

theorem emit_fold_store_proj {γ : Type} {π : Register → γ}
    (hπ : ∀ r x, π { r with n := x } = π r)
    (nInputs : ℕ) (nm ra : List (ℕ × ℕ)) (l : List INode) (es : EState) (k : ℕ) :
    π (regAt (l.foldl (emitStep nInputs nm ra) es).store k) = π (regAt es.store k) := by
  induction l generalizing es with
  | nil => rfl
  | cons o rest ih =>
      rw [List.foldl_cons, ih, emitStep_store_proj hπ]

theorem emit_fold_store_notmp {nInputs : ℕ} {nm ra : List (ℕ × ℕ)}
    {l : List INode} {es : EState} {k : ℕ}
    (hk : (regAt es.store k).temporary = false) :
    regAt ((l.foldl (emitStep nInputs nm ra) es)).store k = regAt es.store k := by
  induction l generalizing es with
  | nil => rfl
  | cons o rest ih =>
      rw [List.foldl_cons]
      have h2 : (regAt (emitStep nInputs nm ra es o).store k).temporary = false := by
        rw [emitStep_store_temporary]
        exact hk
      rw [ih h2, emitStep_store_notmp hk]

theorem emit_fold_destOK {root nInputs : ℕ} {nm ra : List (ℕ × ℕ)}
    {l : List INode} {es : EState} (h : ∀ pr ∈ es.store, destOK root pr) :
    ∀ pr ∈ ((l.foldl (emitStep nInputs nm ra) es)).store, destOK root pr := by
  induction l generalizing es with
  | nil => exact h
  | cons o rest ih =>
      rw [List.foldl_cons]
      exact ih (emitStep_destOK h)

theorem emit_fold_prog {nInputs : ℕ} {nm ra : List (ℕ × ℕ)}
    {l : List INode} {es : EState} {i : Instr}
    (h : i ∈ ((l.foldl (emitStep nInputs nm ra) es)).prog) :
    i ∈ es.prog ∨ ∃ o ∈ l, i.dest = raOf ra (nodeOf nm o.nid) := by
  induction l generalizing es with
  | nil => exact Or.inl h
  | cons o rest ih =>
      rw [List.foldl_cons] at h
      rcases ih h with h2 | ⟨o', ho', hd⟩
      · rcases emitStep_prog_prefix nInputs nm ra es o h2 with h3 | h3
        · exact Or.inl h3
        · exact Or.inr ⟨o, List.mem_cons_self .., h3⟩
      · exact Or.inr ⟨o', List.mem_cons_of_mem _ ho', hd⟩

theorem touch_store_fst (nInputs : ℕ) (nm ra : List (ℕ × ℕ)) (es : EState)
    (aid : ℕ) :
    (touch nInputs nm ra es aid).2.store.map Prod.fst = es.store.map Prod.fst := by
  simp only [touch]
  split
  · dsimp only
    exact updStore_map_fst _ _ _
  · rfl

theorem emitStep_store_fst (nInputs : ℕ) (nm ra : List (ℕ × ℕ)) (es : EState)
    (o : INode) :
    (emitStep nInputs nm ra es o).store.map Prod.fst = es.store.map Prod.fst := by
  cases o with
  | var i s => rfl
  | const i v => rfl
  | op1 i oc x =>
      simp only [emitStep]
      rw [touch_store_fst, touch_store_fst]
  | op2 i oc x y =>
      simp only [emitStep]
      rw [touch_store_fst, touch_store_fst, touch_store_fst]

theorem emit_fold_store_fst (nInputs : ℕ) (nm ra : List (ℕ × ℕ))
    (l : List INode) (es : EState) :
    ((l.foldl (emitStep nInputs nm ra) es)).store.map Prod.fst
      = es.store.map Prod.fst := by
  induction l generalizing es with
  | nil => rfl
  | cons o rest ih =>
      rw [List.foldl_cons, ih, emitStep_store_fst]

theorem emitStep_store_constant (nInputs : ℕ) (nm ra : List (ℕ × ℕ))
    (es : EState) (o : INode) (k : ℕ) :
    (regAt (emitStep nInputs nm ra es o).store k).constant
      = (regAt es.store k).constant :=
  @emitStep_store_proj Bool Register.constant (fun _ _ => rfl) nInputs nm ra es o k

theorem emit_fold_store_constant (nInputs : ℕ) (nm ra : List (ℕ × ℕ))
    (l : List INode) (es : EState) (k : ℕ) :
    (regAt ((l.foldl (emitStep nInputs nm ra) es)).store k).constant
      = (regAt es.store k).constant :=
  @emit_fold_store_proj Bool Register.constant (fun _ _ => rfl) nInputs nm ra l es k

theorem wrapNode_isOp (e : ENode) : (wrapNode e).isOp = true := by
  cases e <;> simp [wrapNode, ENode.isOp]

theorem annot_isOpN (e : ENode) (n : ℕ) : ((annot e n).1).isOpN = e.isOp := by
  cases e <;> simp [annot, INode.isOpN, ENode.isOp]

theorem bpA4_store (exI : INode) (nameMap : List (String × ℕ))
    (varEntries : List (ℕ × ℕ)) (ord : List String) :
    (bpA4 exI nameMap varEntries ord).store = (bpA3 exI nameMap ord).store :=
  reuse_fold_store _ _ _

theorem bpRoot_tmp {exI : INode} (nameMap : List (String × ℕ))
    (varEntries : List (ℕ × ℕ)) (ord : List String)
    (hw : (exI.walkL.map INode.nid).Nodup) (hex : exI.isOpN = true) :
    bpRoot exI nameMap varEntries ord ∈ List.range' ord.length (bpOps exI).length := by
  have hmem : exI ∈ bpOps exI := List.mem_filter.mpr ⟨self_mem_walkL exI, hex⟩
  obtain ⟨⟨j, hj⟩, hget⟩ := List.mem_iff_get.mp hmem
  obtain ⟨robj, hlook, hr⟩ := opid_a4 nameMap varEntries ord hw hj
  rw [hget] at hlook
  rw [bpRoot, raOf, hlook]
  exact hr

/-- The record the root's register object holds after the root fix-up. -/
def rootRec : Register :=
  { n := some 0, name := none, temporary := false, constant := false, value := none }

theorem fixRoot_root_regAt {exI : INode} (nameMap : List (String × ℕ))
    (varEntries : List (ℕ × ℕ)) (ord : List String)
    (hw : (exI.walkL.map INode.nid).Nodup) (hex : exI.isOpN = true) :
    regAt (fixRoot (bpA4 exI nameMap varEntries ord)
        (bpRoot exI nameMap varEntries ord)).store
      (bpRoot exI nameMap varEntries ord) = rootRec := by
  have hr := bpRoot_tmp nameMap varEntries ord hw hex
  rw [List.mem_range'_1] at hr
  have hj : bpRoot exI nameMap varEntries ord
      = ord.length + (bpRoot exI nameMap varEntries ord - ord.length) := by omega
  have hjlt : bpRoot exI nameMap varEntries ord - ord.length < (bpOps exI).length := by
    omega
  have h0 : alookup (bpRoot exI nameMap varEntries ord)
      (bpA4 exI nameMap varEntries ord).store = some tempRec := by
    rw [bpA4_store, hj]
    exact st0_alookup_tmp hjlt
  simp only [fixRoot, regAt]
  rw [alookup_updStore_self, h0]
  rfl

theorem buildProg_store_destOK {exI : INode} (nameMap : List (String × ℕ))
    (varEntries : List (ℕ × ℕ)) (ord : List String) :
    ∀ pr ∈ (buildProg exI nameMap varEntries ord).store,
      destOK (bpRoot exI nameMap varEntries ord) pr := by
  have hbase : ∀ pr ∈ (bpA3 exI nameMap ord).store,
      destOK (bpRoot exI nameMap varEntries ord) pr := by
    intro pr hpr
    rw [bpA3_store] at hpr
    rcases List.mem_append.mp hpr with hm | hm
    · rcases List.mem_append.mp hm with hm | hm
      · obtain ⟨-, -, -, m, hn⟩ := mem_inpStore hm
        exact Or.inr (Or.inr (Or.inr ⟨m, hn⟩))
      · have := mem_tmpStore hm
        refine Or.inr (Or.inr (Or.inl ?_))
        rw [this]
    · exact Or.inr (Or.inl (mem_constStore hm).2.1)
  have hfix : ∀ pr ∈ (fixRoot (bpA4 exI nameMap varEntries ord)
      (bpRoot exI nameMap varEntries ord)).store,
      destOK (bpRoot exI nameMap varEntries ord) pr := by
    intro pr hpr
    simp only [fixRoot] at hpr
    rcases mem_updStore hpr with hm | ⟨r, hr, he⟩
    · rw [bpA4_store] at hm
      exact hbase pr hm
    · rw [he]
      exact Or.inl rfl
  intro pr hpr
  exact emit_fold_destOK hfix pr hpr

theorem buildProg_root_regAt {exI : INode} (nameMap : List (String × ℕ))
    (varEntries : List (ℕ × ℕ)) (ord : List String)
    (hw : (exI.walkL.map INode.nid).Nodup) (hex : exI.isOpN = true) :
    regAt (buildProg exI nameMap varEntries ord).store
      (bpRoot exI nameMap varEntries ord) = rootRec := by
  have h1 := fixRoot_root_regAt nameMap varEntries ord hw hex
  have h2 : (regAt (fixRoot (bpA4 exI nameMap varEntries ord)
      (bpRoot exI nameMap varEntries ord)).store
      (bpRoot exI nameMap varEntries ord)).temporary = false := by
    rw [h1]
    rfl
  have h3 : regAt ((bpOps exI).foldl
        (emitStep ord.length (bpNodeMap exI varEntries) (bpA4 exI nameMap varEntries ord).ra)
        { store := (fixRoot (bpA4 exI nameMap varEntries ord)
            (bpRoot exI nameMap varEntries ord)).store, seen := [], prog := [] }).store
        (bpRoot exI nameMap varEntries ord)
      = regAt ({ store := (fixRoot (bpA4 exI nameMap varEntries ord)
            (bpRoot exI nameMap varEntries ord)).store, seen := [], prog := [] } : EState).store
        (bpRoot exI nameMap varEntries ord) :=
    emit_fold_store_notmp h2
  exact h3.trans h1

theorem buildProg_dest_root {exI : INode} (nameMap : List (String × ℕ))
    (varEntries : List (ℕ × ℕ)) (ord : List String)
    (hw : (exI.walkL.map INode.nid).Nodup)
    (hv : varEntries = (firstSeen (varPairs exI.walkL)).2) :
    ∀ i ∈ (buildProg exI nameMap varEntries ord).program,
      (regAt (buildProg exI nameMap varEntries ord).store i.dest).n = some 0 →
        i.dest = bpRoot exI nameMap varEntries ord := by
  intro i hi hn
  have hprog : i ∈ (bpES exI nameMap varEntries ord).prog := hi
  rw [bpES] at hprog
  rcases emit_fold_prog hprog with h0 | ⟨o, ho, hd⟩
  · simp at h0
  rw [nodeOf_opid hw hv ho] at hd
  obtain ⟨⟨j, hj⟩, hget⟩ := List.mem_iff_get.mp ho
  obtain ⟨robj, hlook, hr⟩ := opid_a4 nameMap varEntries ord hw hj
  rw [hget] at hlook
  rw [raOf, hlook] at hd
  simp only [Option.getD_some] at hd
  by_cases hroot : robj = bpRoot exI nameMap varEntries ord
  · rw [hd, hroot]
  · exfalso
    rw [List.mem_range'_1] at hr
    have hjr : robj = ord.length + (robj - ord.length) := by omega
    have hjlt : robj - ord.length < (bpOps exI).length := by omega
    have hst0 : alookup robj (bpA3 exI nameMap ord).store = some tempRec := by
      rw [hjr]
      exact st0_alookup_tmp hjlt
    -- the final store still holds an entry for robj, with constant = false
    have hcst : (regAt (buildProg exI nameMap varEntries ord).store robj).constant
        = false := by
      show (regAt (bpES exI nameMap varEntries ord).store robj).constant = false
      rw [bpES, emit_fold_store_constant]
      show (regAt (fixRoot (bpA4 exI nameMap varEntries ord)
          (bpRoot exI nameMap varEntries ord)).store robj).constant = false
      simp only [fixRoot]
      rw [regAt_updStore_ne hroot]
      show (regAt (bpA4 exI nameMap varEntries ord).store robj).constant = false
      rw [bpA4_store, regAt, hst0]
      rfl
    have hkeys : (buildProg exI nameMap varEntries ord).store.map Prod.fst
        = (fixRoot (bpA4 exI nameMap varEntries ord)
            (bpRoot exI nameMap varEntries ord)).store.map Prod.fst := by
      show (bpES exI nameMap varEntries ord).store.map Prod.fst = _
      rw [bpES, emit_fold_store_fst]
    have hinkeys : robj ∈ (buildProg exI nameMap varEntries ord).store.map Prod.fst := by
      rw [hkeys]
      simp only [fixRoot]
      rw [updStore_map_fst, bpA4_store]
      exact List.mem_map.mpr ⟨(robj, tempRec), alookup_mem hst0, rfl⟩
    rcases hfin : alookup robj (buildProg exI nameMap varEntries ord).store with _ | r
    · exact absurd (alookup_eq_none.mp hfin) (by simpa using hinkeys)
    · have hmem : (robj, r) ∈ (buildProg exI nameMap varEntries ord).store :=
        alookup_mem hfin
      have hOK := buildProg_store_destOK nameMap varEntries ord _ hmem
      have hrn : r.n = some 0 := by
        rw [hd] at hn
        rw [regAt, hfin] at hn
        exact hn
      have hrc : r.constant = false := by
        rw [regAt, hfin] at hcst
        exact hcst
      rcases hOK with h | h | h | ⟨m, h⟩
      · exact hroot h
      · rw [hrc] at h
        exact absurd h (by simp)
      · rw [hrn] at h
        exact absurd h (by simp)
      · rw [hrn] at h
        simp at h

theorem wrapNode_varNamesE (e : ENode) : (wrapNode e).varNamesE = e.varNamesE := by
  cases e <;> rfl

theorem wrapNode_constValsE (e : ENode) : (wrapNode e).constValsE = e.constValsE := by
  cases e <;> rfl

theorem nameMap_keys (e : ENode) :
    ((firstSeen (varPairs ((annot (wrapNode e) 0).1).walkL)).1).map Prod.fst
      = dedupFirst e.varNamesE := by
  show ((firstSeenAux [] [] (varPairs ((annot (wrapNode e) 0).1).walkL)).1).map Prod.fst = _
  rw [fs_keys]
  simp only [List.map_nil]
  rw [varPairs_fst, wrapNode_varNamesE]
  rfl

theorem cm_keys (e : ENode) :
    ((bpCM ((annot (wrapNode e) 0).1)).1).map Prod.fst = dedupFirst e.constValsE := by
  show ((firstSeenAux [] [] (constPairs ((annot (wrapNode e) 0).1).walkL)).1).map Prod.fst = _
  rw [fs_keys]
  simp only [List.map_nil]
  rw [constPairs_fst, wrapNode_constValsE]
  rfl

theorem buildProg_const_reg {exI : INode} (nameMap : List (String × ℕ))
    (varEntries : List (ℕ × ℕ)) (ord : List String)
    (hw : (exI.walkL.map INode.nid).Nodup) (hex : exI.isOpN = true)
    {j : ℕ} (hj : j < (bpCM exI).1.length) :
    alookup (((bpCM exI).1.get ⟨j, hj⟩).2) (bpA4 exI nameMap varEntries ord).ra
        = some (ord.length + (bpOps exI).length + j)
    ∧ regAt (buildProg exI nameMap varEntries ord).store
        (ord.length + (bpOps exI).length + j)
      = ⟨some j, none, false, true, some (((bpCM exI).1.get ⟨j, hj⟩).1)⟩ := by
  constructor
  · obtain ⟨m, hm, hp⟩ :=
      reuse_fold_ra (bpNodeMap exI varEntries) (bpOps exI) (bpA3 exI nameMap ord)
    rw [bpA4, hm]
    have hcid : ((bpCM exI).1.get ⟨j, hj⟩).2 ∈ (bpCM exI).1.map Prod.snd :=
      List.mem_map.mpr ⟨_, List.get_mem _ _ _, rfl⟩
    have hmnone : alookup (((bpCM exI).1.get ⟨j, hj⟩).2) m = none := by
      cases hml : alookup (((bpCM exI).1.get ⟨j, hj⟩).2) m with
      | none => rfl
      | some v =>
          obtain ⟨⟨o, ho, he⟩, -⟩ := hp _ (alookup_mem hml)
          exact absurd (he ▸ hcid) (opid_not_cm_snd hw ho)
    rw [alookup_append_right _ hmnone, bpA3_ra]
    have hc := @constRA_alookup (ord.length + (bpOps exI).length) j (bpCM exI).1
      (cm_snd_nodup exI hw) hj
    exact alookup_append_left _ hc
  · have hroot := bpRoot_tmp nameMap varEntries ord hw hex
    rw [List.mem_range'_1] at hroot
    have hne : ord.length + (bpOps exI).length + j ≠ bpRoot exI nameMap varEntries ord := by
      omega
    have h0 : alookup (ord.length + (bpOps exI).length + j)
        (bpA4 exI nameMap varEntries ord).store
        = some ⟨some j, none, false, true, some (((bpCM exI).1.get ⟨j, hj⟩).1)⟩ := by
      rw [bpA4_store]
      have := @st0_alookup_const exI nameMap ord j hj
      simpa using this
    have h1 : regAt (fixRoot (bpA4 exI nameMap varEntries ord)
        (bpRoot exI nameMap varEntries ord)).store
        (ord.length + (bpOps exI).length + j)
        = ⟨some j, none, false, true, some (((bpCM exI).1.get ⟨j, hj⟩).1)⟩ := by
      simp only [fixRoot]
      rw [regAt_updStore_ne hne, regAt, h0]
      rfl
    have h2 : (regAt ({ store := (fixRoot (bpA4 exI nameMap varEntries ord)
          (bpRoot exI nameMap varEntries ord)).store, seen := [], prog := [] } : EState).store
        (ord.length + (bpOps exI).length + j)).temporary = false := by
      show (regAt (fixRoot (bpA4 exI nameMap varEntries ord)
          (bpRoot exI nameMap varEntries ord)).store
          (ord.length + (bpOps exI).length + j)).temporary = false
      rw [h1]
    have h3 : regAt ((bpOps exI).foldl
          (emitStep ord.length (bpNodeMap exI varEntries) (bpA4 exI nameMap varEntries ord).ra)
          { store := (fixRoot (bpA4 exI nameMap varEntries ord)
              (bpRoot exI nameMap varEntries ord)).store, seen := [], prog := [] }).store
          (ord.length + (bpOps exI).length + j)
        = regAt ({ store := (fixRoot (bpA4 exI nameMap varEntries ord)
              (bpRoot exI nameMap varEntries ord)).store, seen := [], prog := [] } : EState).store
          (ord.length + (bpOps exI).length + j) :=
      emit_fold_store_notmp h2
    exact h3.trans h1

theorem updStore_filter_names {robj : ℕ} {f : Register → Register}
    {st : List (ℕ × Register)} (hf : ∀ r, (f r).name = r.name)
    (hnr : ∀ pr ∈ st, pr.2.name.isSome = true → pr.1 ≠ robj) :
    (updStore robj f st).filter (fun pr => pr.2.name.isSome)
      = st.filter (fun pr => pr.2.name.isSome) := by
  induction st with
  | nil => rfl
  | cons p t ih =>
      obtain ⟨k1, v1⟩ := p
      rw [updStore_cons]
      have iht := ih (fun pr hpr hn => hnr pr (List.mem_cons_of_mem _ hpr) hn)
      by_cases h1 : k1 = robj
      · rw [if_pos h1]
        have hv1 : v1.name.isSome = false := by
          by_cases hn : v1.name.isSome = true
          · exact absurd h1 (hnr (k1, v1) (List.mem_cons_self ..) hn)
          · simpa using hn
        have hfv1 : (f v1).name.isSome = false := by
          rw [hf]
          exact hv1
        rw [List.filter_cons, List.filter_cons]
        simp only [hv1, hfv1]
        exact iht
      · rw [if_neg h1, List.filter_cons, List.filter_cons]
        by_cases hn : v1.name.isSome = true <;> simp only [hn] <;> simp [iht]

theorem touch_filter_names {nInputs : ℕ} {nm ra : List (ℕ × ℕ)} {es : EState}
    {aid i0 : ℕ}
    (hTH : ∀ k, (regAt es.store k).temporary = true → i0 ≤ k)
    (hlow : ∀ pr ∈ es.store, pr.2.name.isSome = true → pr.1 < i0) :
    (touch nInputs nm ra es aid).2.store.filter (fun pr => pr.2.name.isSome)
      = es.store.filter (fun pr => pr.2.name.isSome) := by
  simp only [touch]
  split
  · rename_i hcond
    dsimp only
    refine updStore_filter_names (fun r => rfl) ?_
    intro pr hpr hn
    have h1 := hlow pr hpr hn
    have h2 := hTH _ hcond.2
    omega
  · rfl

theorem touch_preserves_low {nInputs : ℕ} {nm ra : List (ℕ × ℕ)} {es : EState}
    {aid i0 : ℕ}
    (hlow : ∀ pr ∈ es.store, pr.2.name.isSome = true → pr.1 < i0) :
    ∀ pr ∈ (touch nInputs nm ra es aid).2.store, pr.2.name.isSome = true → pr.1 < i0 := by
  simp only [touch]
  split
  · intro pr hpr hn
    dsimp only at hpr
    rcases mem_updStore hpr with hm | ⟨r, hr, he⟩
    · exact hlow pr hm hn
    · subst he
      exact (hlow _ hr) (by simpa using hn)
  · exact hlow

theorem touch_preserves_TH {nInputs : ℕ} {nm ra : List (ℕ × ℕ)} {es : EState}
    {aid i0 : ℕ}
    (hTH : ∀ k, (regAt es.store k).temporary = true → i0 ≤ k) :
    ∀ k, (regAt (touch nInputs nm ra es aid).2.store k).temporary = true → i0 ≤ k := by
  intro k hk
  rw [touch_store_temporary] at hk
  exact hTH k hk

theorem emitStep_filter_names {nInputs : ℕ} {nm ra : List (ℕ × ℕ)} {es : EState}
    {o : INode} {i0 : ℕ}
    (hTH : ∀ k, (regAt es.store k).temporary = true → i0 ≤ k)
    (hlow : ∀ pr ∈ es.store, pr.2.name.isSome = true → pr.1 < i0) :
    (emitStep nInputs nm ra es o).store.filter (fun pr => pr.2.name.isSome)
      = es.store.filter (fun pr => pr.2.name.isSome) := by
  cases o with
  | var i s => rfl
  | const i v => rfl
  | op1 i oc x =>
      simp only [emitStep]
      rw [touch_filter_names (touch_preserves_TH hTH) (touch_preserves_low hlow),
        touch_filter_names hTH hlow]
  | op2 i oc x y =>
      simp only [emitStep]
      rw [touch_filter_names (touch_preserves_TH (touch_preserves_TH hTH))
          (touch_preserves_low (touch_preserves_low hlow)),
        touch_filter_names (touch_preserves_TH hTH) (touch_preserves_low hlow),
        touch_filter_names hTH hlow]

theorem emitStep_preserves_low {nInputs : ℕ} {nm ra : List (ℕ × ℕ)} {es : EState}
    {o : INode} {i0 : ℕ}
    (hlow : ∀ pr ∈ es.store, pr.2.name.isSome = true → pr.1 < i0) :
    ∀ pr ∈ (emitStep nInputs nm ra es o).store, pr.2.name.isSome = true → pr.1 < i0 := by
  cases o with
  | var i s => exact hlow
  | const i v => exact hlow
  | op1 i oc x =>
      simp only [emitStep]
      exact touch_preserves_low (touch_preserves_low hlow)
  | op2 i oc x y =>
      simp only [emitStep]
      exact touch_preserves_low (touch_preserves_low (touch_preserves_low hlow))

theorem emitStep_preserves_TH {nInputs : ℕ} {nm ra : List (ℕ × ℕ)} {es : EState}
    {o : INode} {i0 : ℕ}
    (hTH : ∀ k, (regAt es.store k).temporary = true → i0 ≤ k) :
    ∀ k, (regAt (emitStep nInputs nm ra es o).store k).temporary = true → i0 ≤ k := by
  intro k hk
  rw [emitStep_store_temporary] at hk
  exact hTH k hk

theorem emit_fold_filter_names {nInputs : ℕ} {nm ra : List (ℕ × ℕ)}
    {l : List INode} {es : EState} {i0 : ℕ}
    (hTH : ∀ k, (regAt es.store k).temporary = true → i0 ≤ k)
    (hlow : ∀ pr ∈ es.store, pr.2.name.isSome = true → pr.1 < i0) :
    ((l.foldl (emitStep nInputs nm ra) es)).store.filter (fun pr => pr.2.name.isSome)
      = es.store.filter (fun pr => pr.2.name.isSome) := by
  induction l generalizing es with
  | nil => rfl
  | cons o rest ih =>
      rw [List.foldl_cons,
        ih (emitStep_preserves_TH hTH) (emitStep_preserves_low hlow),
        emitStep_filter_names hTH hlow]

theorem st0_filter_names (exI : INode) (nameMap : List (String × ℕ))
    (ord : List String) :
    (bpA3 exI nameMap ord).store.filter (fun pr => pr.2.name.isSome)
      = inpStore 0 0 ord := by
  rw [bpA3_store, List.filter_append, List.filter_append]
  have h1 : (inpStore 0 0 ord).filter (fun pr => pr.2.name.isSome)
      = inpStore 0 0 ord :=
    List.filter_eq_self.mpr (fun pr hpr => (mem_inpStore hpr).2.2.1)
  have h2 : (tmpStore ord.length (bpOps exI)).filter (fun pr => pr.2.name.isSome)
      = [] := by
    rw [List.filter_eq_nil_iff]
    intro pr hpr
    rw [mem_tmpStore hpr]
    simp
  have h3 : (constStore (ord.length + (bpOps exI).length) 0 (bpCM exI).1).filter
      (fun pr => pr.2.name.isSome) = [] := by
    rw [List.filter_eq_nil_iff]
    intro pr hpr
    rw [(mem_constStore hpr).2.2]
    simp
  rw [h1, h2, h3, List.append_nil, List.append_nil]

theorem st0_low (exI : INode) (nameMap : List (String × ℕ)) (ord : List String) :
    ∀ pr ∈ (bpA3 exI nameMap ord).store, pr.2.name.isSome = true →
      pr.1 < ord.length := by
  intro pr hpr hn
  rw [bpA3_store] at hpr
  rcases List.mem_append.mp hpr with hm | hm
  · rcases List.mem_append.mp hm with hm | hm
    · have : pr.1 ∈ (inpStore 0 0 ord).map Prod.fst :=
        List.mem_map.mpr ⟨pr, hm, rfl⟩
      rw [inpStore_keys, List.mem_range'_1] at this
      omega
    · rw [mem_tmpStore hm] at hn
      exact absurd hn (by simp)
  · rw [(mem_constStore hm).2.2] at hn
    exact absurd hn (by simp)

theorem st0_TH (exI : INode) (nameMap : List (String × ℕ)) (ord : List String) :
    ∀ k, (regAt (bpA3 exI nameMap ord).store k).temporary = true →
      ord.length ≤ k := by
  intro k hk
  have := temp_robj_mem_tmpKeys hk
  rw [List.mem_range'_1] at this
  omega

theorem buildProg_store_names {exI : INode} (nameMap : List (String × ℕ))
    (varEntries : List (ℕ × ℕ)) (ord : List String)
    (hw : (exI.walkL.map INode.nid).Nodup) (hex : exI.isOpN = true) :
    ((buildProg exI nameMap varEntries ord).store.filter
        (fun pr => pr.2.name.isSome)).map Prod.snd
      = (withIdx 0 ord).map (fun pr =>
          { n := some (pr.1 + 1), name := some pr.2, temporary := false,
            constant := false, value := none }) := by
  have hroot := bpRoot_tmp nameMap varEntries ord hw hex
  rw [List.mem_range'_1] at hroot
  have hlow1 : ∀ pr ∈ (fixRoot (bpA4 exI nameMap varEntries ord)
      (bpRoot exI nameMap varEntries ord)).store,
      pr.2.name.isSome = true → pr.1 < ord.length := by
    intro pr hpr hn
    simp only [fixRoot] at hpr
    rcases mem_updStore hpr with hm | ⟨r, hr, he⟩
    · rw [bpA4_store] at hm
      exact st0_low exI nameMap ord pr hm hn
    · subst he
      rw [bpA4_store] at hr
      exact (st0_low exI nameMap ord _ hr) (by simpa using hn)
  have hTH1 : ∀ k, (regAt (fixRoot (bpA4 exI nameMap varEntries ord)
      (bpRoot exI nameMap varEntries ord)).store k).temporary = true →
      ord.length ≤ k := by
    intro k hk
    simp only [fixRoot] at hk
    by_cases hkr : k = bpRoot exI nameMap varEntries ord
    · omega
    · rw [regAt_updStore_ne hkr, bpA4_store] at hk
      exact st0_TH exI nameMap ord k hk
  have hnr : ∀ pr ∈ (bpA4 exI nameMap varEntries ord).store,
      pr.2.name.isSome = true → pr.1 ≠ bpRoot exI nameMap varEntries ord := by
    intro pr hpr hn
    rw [bpA4_store] at hpr
    have := st0_low exI nameMap ord pr hpr hn
    omega
  have hfix : (fixRoot (bpA4 exI nameMap varEntries ord)
      (bpRoot exI nameMap varEntries ord)).store.filter (fun pr => pr.2.name.isSome)
      = inpStore 0 0 ord := by
    simp only [fixRoot]
    have heq := @updStore_filter_names (bpRoot exI nameMap varEntries ord)
      (fun r => { r with n := some 0, temporary := false })
      (bpA4 exI nameMap varEntries ord).store (fun r => rfl) hnr
    rw [heq, bpA4_store]
    exact st0_filter_names exI nameMap ord
  have hfold : ((buildProg exI nameMap varEntries ord).store.filter
      (fun pr => pr.2.name.isSome))
      = ({ store := (fixRoot (bpA4 exI nameMap varEntries ord)
            (bpRoot exI nameMap varEntries ord)).store, seen := [],
           prog := [] } : EState).store.filter (fun pr => pr.2.name.isSome) := by
    show (bpES exI nameMap varEntries ord).store.filter _ = _
    rw [bpES]
    exact emit_fold_filter_names hTH1 hlow1
  rw [hfold]
  show ((fixRoot (bpA4 exI nameMap varEntries ord)
      (bpRoot exI nameMap varEntries ord)).store.filter
      (fun pr => pr.2.name.isSome)).map Prod.snd = _
  rw [hfix]
  exact inpStore_snd 0 0 ord

/-! ## Theorems -/

/-- C9: the reflected operator combinators build the `Op` with operands in
(node, constant) order without swapping — for every node `x`, host number `c`
and binary operator, evaluating `c <op> x` produces exactly the same result as
evaluating `x <op> c` (in particular `c - x` builds the same AST as `x - c`,
and `c / x` the same as `x / c`). -/
theorem reflected_binop_same_ast (k : BinKind) (x : ENode) (c : ℚ) :
    pyArith k (.num c) (.node x) = pyArith k (.node x) (.num c) := by
  cases x <;> rfl

/-- C1 (counterexample): for the non-constant node `a` and the numeric literal
`0`, constructing `a / 0` does not yield a `mul_c` `Op` — the reciprocal
`1./0` raises `ZeroDivisionError` instead. -/
theorem div_by_zero_constant_raises :
    pyArith .div (.node (.var "a")) (.num 0) = .error .zeroDivision := by
  rfl

/-- C1 (amended): for every non-constant operand node `x` and numeric literal
`c`, constructing `x - c` yields an `add_c` `Op` whose second operand is the
folded `Constant` holding `-c`; for `c ≠ 0`, constructing `x / c` yields a
`mul_c` `Op` whose second operand is the `Constant` holding `1.0 / c`; for
`c = 0` the division normalization raises `ZeroDivisionError`. -/
theorem sub_div_by_constant_normalization (x : ENode) (c : ℚ)
    (hx : x.isConst = false) :
    pyArith .sub (.node x) (.num c) = .ok (.node (.op2 "add_c" x (.const (-c))))
    ∧ (c ≠ 0 →
        pyArith .div (.node x) (.num c) = .ok (.node (.op2 "mul_c" x (.const (1 / c)))))
    ∧ (c = 0 → pyArith .div (.node x) (.num c) = .error .zeroDivision) := by
  cases x with
  | const v => simp [ENode.isConst] at hx
  | var s =>
      refine ⟨rfl, fun hc => ?_, fun hc => ?_⟩ <;>
        simp [pyArith, nodeBin, OpNode.mk2, BinKind.opname, Except.map, hc]
  | op1 oc a =>
      refine ⟨rfl, fun hc => ?_, fun hc => ?_⟩ <;>
        simp [pyArith, nodeBin, OpNode.mk2, BinKind.opname, Except.map, hc]
  | op2 oc a b =>
      refine ⟨rfl, fun hc => ?_, fun hc => ?_⟩ <;>
        simp [pyArith, nodeBin, OpNode.mk2, BinKind.opname, Except.map, hc]

/-- C1 (witness): at `x = a`, `c = 2`: `a - 2` builds `add_c` with constant
`-2` and `a / 2` builds `mul_c` with constant `1/2 = 0.5`. -/
theorem sub_div_by_constant_normalization_inst :
    (ENode.var "a").isConst = false
    ∧ (pyArith .sub (.node (.var "a")) (.num 2)
          = .ok (.node (.op2 "add_c" (.var "a") (.const (-2))))
        ∧ ((2 : ℚ) ≠ 0 →
            pyArith .div (.node (.var "a")) (.num 2)
              = .ok (.node (.op2 "mul_c" (.var "a") (.const (1 / 2)))))
        ∧ ((2 : ℚ) = 0 →
            pyArith .div (.node (.var "a")) (.num 2) = .error .zeroDivision)) :=
  ⟨by decide, sub_div_by_constant_normalization (.var "a") 2 (by decide)⟩

/-- C2 (code behavior at the failing input): constructing `ConstantNode(2) +
VariableNode('a')` tags the opcode `add_c` and keeps the constant first, and
the instruction emitted for that `Op` references the constant-file register in
the FIRST encoded operand slot and the variable-file register in the second —
not, as claimed, the constant in the trailing slot. -/
theorem constant_first_operand_stays_first :
    nodeBin .add (ENode.const 2) (.node (ENode.var "a"))
      = .ok (.node (ENode.op2 "add_c" (ENode.const 2) (ENode.var "a")))
    ∧ (numexprNode (ENode.op2 "add_c" (ENode.const 2) (ENode.var "a")) none).map
        (fun p => p.program.map
          (fun i => (i.opcode, regAt p.store i.dest, regAt p.store i.a1,
                     i.a2.map (regAt p.store))))
      = .ok [("add_c",
              { n := some 0, name := none, temporary := false, constant := false,
                value := none },
              { n := some 0, name := none, temporary := false, constant := true,
                value := some 2 },
              some { n := some 1, name := some "a", temporary := false,
                     constant := false, value := none })] := by
  exact ⟨rfl, rfl⟩

/-- C4 (code behavior at the failing input): the fully constant text `"2+3"`
is folded by the host evaluator to the plain number `5`, never to a
`ConstantNode`; `numexpr` then wraps the number in `OpNode('copy', (5,))` and
crashes with `AttributeError` while walking it, instead of emitting a one-copy
program with constant pool `[5.0]`. -/
theorem fully_constant_text_crashes :
    string2expression "2+3" = .ok (.num 5)
    ∧ numexprStr "2+3" none = .error .attributeWalk := by
  have h : string2expression "2+3" = .ok (.num (2 + 3)) := rfl
  refine ⟨by rw [h]; norm_num, ?_⟩
  simp [numexprStr, h, Except.bind, numexprVal]

/-- C3 (counterexample): compiling `"a+b+c"` produces two instructions whose
destination registers BOTH carry index 0 — the instruction of the non-root
inner addition writes the output register, because the reuse pass made the
root share the inner node's temporary and the root fix-up set that shared
register to index 0. -/
theorem nonroot_instruction_writes_register_zero :
    (numexprStr "a+b+c" none).map
        (fun p => p.program.map (fun i => (regAt p.store i.dest).n))
      = .ok [some 0, some 0] := by
  rfl

/-- Inversion for successful compilation: the produced program is `buildProg`
applied to the annotated wrapped expression, its canonical name maps, and some
resolved input order. -/
theorem numexprNode_ok {e : ENode} {order : Option (List String)} {p : Prog}
    (h : numexprNode e order = .ok p) :
    ∃ ord, p = buildProg ((annot (wrapNode e) 0).1)
        (firstSeen (varPairs ((annot (wrapNode e) 0).1).walkL)).1
        (firstSeen (varPairs ((annot (wrapNode e) 0).1).walkL)).2 ord := by
  simp only [numexprNode] at h
  split at h
  · split at h
    · simp at h
    · split at h
      · simp at h
      · exact ⟨_, (Except.ok.inj h).symm⟩
  · exact ⟨_, (Except.ok.inj h).symm⟩

/-- C3 (amended): in every compiled program, a destination register reads
index 0 only when it is the root's register object (which the reuse pass may
share with non-root operations), the root's register does read index 0, and
every other non-constant register object — inputs and temporaries — carries an
index different from 0. -/
theorem output_register_zero_isolation (e : ENode) (order : Option (List String))
    (p : Prog) (h : numexprNode e order = .ok p) :
    (∀ pr ∈ p.store, pr.1 ≠ p.rootRobj → pr.2.constant = false → pr.2.n ≠ some 0)
    ∧ (∀ i ∈ p.program, (regAt p.store i.dest).n = some 0 → i.dest = p.rootRobj)
    ∧ (regAt p.store p.rootRobj).n = some 0 := by
  obtain ⟨ord, rfl⟩ := numexprNode_ok h
  have hw := walk_nids_nodup (wrapNode e) 0
  have hex : ((annot (wrapNode e) 0).1).isOpN = true := by
    rw [annot_isOpN]
    exact wrapNode_isOp e
  refine ⟨?_, ?_, ?_⟩
  · intro pr hpr hne hc
    have hOK := buildProg_store_destOK
      (firstSeen (varPairs ((annot (wrapNode e) 0).1).walkL)).1
      (firstSeen (varPairs ((annot (wrapNode e) 0).1).walkL)).2 ord pr hpr
    rcases hOK with h1 | h1 | h1 | ⟨m, h1⟩
    · exact absurd h1 hne
    · rw [hc] at h1
      exact absurd h1 (by simp)
    · rw [h1]
      simp
    · rw [h1]
      simp
  · exact buildProg_dest_root _ _ _ hw rfl
  · have hroot := buildProg_root_regAt
      (firstSeen (varPairs ((annot (wrapNode e) 0).1).walkL)).1
      (firstSeen (varPairs ((annot (wrapNode e) 0).1).walkL)).2 ord hw hex
    rw [show (buildProg ((annot (wrapNode e) 0).1)
        (firstSeen (varPairs ((annot (wrapNode e) 0).1).walkL)).1
        (firstSeen (varPairs ((annot (wrapNode e) 0).1).walkL)).2 ord).rootRobj
        = bpRoot ((annot (wrapNode e) 0).1)
            (firstSeen (varPairs ((annot (wrapNode e) 0).1).walkL)).1
            (firstSeen (varPairs ((annot (wrapNode e) 0).1).walkL)).2 ord from rfl,
      hroot]
    rfl

/-- The concrete program compiled from the bare variable `a`. -/
def progW3 : Prog :=
  { n_inputs := 1, n_temps := 0, input_names := ["a"], constants := [],
    program := [⟨"copy", 1, 0, none⟩],
    store := [(0, ⟨some 1, some "a", false, false, none⟩),
              (1, ⟨some 0, none, false, false, none⟩)],
    regAssign := [(1, 1), (0, 0)], rootRobj := 1,
    nameMap := [("a", 0)], constMap := [], nodeMap := [(0, 0)] }

/-- C3 (witness): the output-register isolation at the concrete compilation of
the expression `a`. -/
theorem output_register_zero_isolation_inst :
    numexprNode (ENode.var "a") none = .ok progW3
    ∧ ((∀ pr ∈ progW3.store, pr.1 ≠ progW3.rootRobj → pr.2.constant = false →
          pr.2.n ≠ some 0)
       ∧ (∀ i ∈ progW3.program, (regAt progW3.store i.dest).n = some 0 →
          i.dest = progW3.rootRobj)
       ∧ (regAt progW3.store progW3.rootRobj).n = some 0) :=
  ⟨rfl, output_register_zero_isolation (ENode.var "a") none progW3 rfl⟩

/-- C8: the cache of `evaluate` is keyed by the exact source string: a hit
returns the cached program without running the compiler; a compilation error
leaves the cache unchanged; a successful first compilation publishes the
program under the string, and a second call with the identical string returns
that same program without compiling. -/
theorem evaluate_cache_memoization (cache : List (String × Prog)) (s : String) :
    (∀ p, alookup s cache = some p →
        evaluateResolve cache s = (.ok p, cache, false))
    ∧ (∀ err, alookup s cache = none → numexprStr s none = .error err →
        evaluateResolve cache s = (.error err, cache, true))
    ∧ (∀ p, alookup s cache = none → numexprStr s none = .ok p →
        evaluateResolve cache s = (.ok p, (s, p) :: cache, true)
        ∧ evaluateResolve ((s, p) :: cache) s = (.ok p, (s, p) :: cache, false)) := by
  refine ⟨?_, ?_, ?_⟩
  · intro p hp
    simp [evaluateResolve, hp]
  · intro err h1 h2
    simp [evaluateResolve, h1, h2]
  · intro p h1 h2
    refine ⟨?_, ?_⟩
    · simp [evaluateResolve, h1, h2]
    · simp [evaluateResolve, alookup]

/-- C8 (witness): a failing compilation (`"2+3"`) leaves an empty cache empty,
and a cache hit returns the stored program without compiling. -/
theorem evaluate_cache_memoization_inst :
    (alookup "2+3" ([] : List (String × Prog)) = none
      ∧ numexprStr "2+3" none = .error .attributeWalk
      ∧ evaluateResolve [] "2+3" = (.error .attributeWalk, [], true))
    ∧ (alookup "x" [("x", someProg)] = some someProg
      ∧ evaluateResolve [("x", someProg)] "x"
          = (.ok someProg, [("x", someProg)], false)) :=
  ⟨⟨rfl, rfl, (evaluate_cache_memoization [] "2+3").2.1 .attributeWalk rfl rfl⟩,
   ⟨rfl, (evaluate_cache_memoization [("x", someProg)] "x").1 someProg rfl⟩⟩

/-- C7: value numbering — compilation allocates exactly one input register per
distinct variable name and exactly one constant-pool entry per distinct
numeric value, regardless of how many times each occurs. -/
theorem value_numbering_dedup (e : ENode) (p : Prog)
    (h : numexprNode e none = .ok p) :
    p.input_names.Nodup
    ∧ (∀ s, s ∈ p.input_names ↔ s ∈ e.varNamesE)
    ∧ p.n_inputs = (dedupFirst e.varNamesE).length
    ∧ p.constants.Nodup
    ∧ (∀ v, v ∈ p.constants ↔ v ∈ e.constValsE)
    ∧ p.constants.length = (dedupFirst e.constValsE).length := by
  have he : numexprNode e none = .ok (buildProg ((annot (wrapNode e) 0).1)
      (firstSeen (varPairs ((annot (wrapNode e) 0).1).walkL)).1
      (firstSeen (varPairs ((annot (wrapNode e) 0).1).walkL)).2
      (sortNames ((firstSeen (varPairs ((annot (wrapNode e) 0).1).walkL)).1.map Prod.fst))) :=
    rfl
  rw [he] at h
  obtain rfl := Except.ok.inj h
  refine ⟨?_, ?_, ?_, ?_, ?_, ?_⟩
  · show (sortNames ((firstSeen (varPairs ((annot (wrapNode e) 0).1).walkL)).1.map Prod.fst)).Nodup
    rw [nameMap_keys]
    exact nodup_sortNames (nodup_dedupFirst _)
  · intro s
    show s ∈ sortNames ((firstSeen (varPairs ((annot (wrapNode e) 0).1).walkL)).1.map Prod.fst)
        ↔ _
    rw [mem_sortNames, nameMap_keys, mem_dedupFirst]
  · show (sortNames ((firstSeen (varPairs ((annot (wrapNode e) 0).1).walkL)).1.map Prod.fst)).length
        = _
    rw [(sortNames_perm _).length_eq, nameMap_keys]
  · show ((bpCM ((annot (wrapNode e) 0).1)).1.map Prod.fst).Nodup
    rw [cm_keys]
    exact nodup_dedupFirst _
  · intro v
    show v ∈ (bpCM ((annot (wrapNode e) 0).1)).1.map Prod.fst ↔ _
    rw [cm_keys, mem_dedupFirst]
  · show ((bpCM ((annot (wrapNode e) 0).1)).1.map Prod.fst).length = _
    rw [cm_keys]

/-- The concrete program compiled from `a + a`. -/
def progW7 : Prog :=
  { n_inputs := 1, n_temps := 0, input_names := ["a"], constants := [],
    program := [⟨"add", 1, 0, some 0⟩],
    store := [(0, ⟨some 1, some "a", false, false, none⟩),
              (1, ⟨some 0, none, false, false, none⟩)],
    regAssign := [(2, 1), (0, 0)], rootRobj := 1,
    nameMap := [("a", 0)], constMap := [], nodeMap := [(0, 0), (1, 0)] }

/-- C7 (witness): `a + a` allocates exactly one input register for `a`. -/
theorem value_numbering_dedup_inst :
    numexprNode (ENode.op2 "add" (ENode.var "a") (ENode.var "a")) none = .ok progW7
    ∧ (progW7.input_names.Nodup
      ∧ (∀ s, s ∈ progW7.input_names
          ↔ s ∈ (ENode.op2 "add" (ENode.var "a") (ENode.var "a")).varNamesE)
      ∧ progW7.n_inputs
          = (dedupFirst (ENode.op2 "add" (ENode.var "a") (ENode.var "a")).varNamesE).length
      ∧ progW7.constants.Nodup
      ∧ (∀ v, v ∈ progW7.constants
          ↔ v ∈ (ENode.op2 "add" (ENode.var "a") (ENode.var "a")).constValsE)
      ∧ progW7.constants.length
          = (dedupFirst (ENode.op2 "add" (ENode.var "a") (ENode.var "a")).constValsE).length) :=
  ⟨rfl, value_numbering_dedup (ENode.op2 "add" (ENode.var "a") (ENode.var "a")) progW7 rfl⟩

/-- C10: an empty caller-specified input order is falsy in Python, so it is
treated exactly as if no order had been supplied: no input-mismatch error is
raised and the input registers are assigned in sorted name order. -/
theorem empty_input_order_ignored (e : ENode) :
    numexprNode e (some []) = numexprNode e none
    ∧ ∀ p, numexprNode e (some []) = .ok p →
        p.input_names = sortNames (dedupFirst e.varNamesE) := by
  refine ⟨rfl, ?_⟩
  intro p h
  have he : numexprNode e (some []) = .ok (buildProg ((annot (wrapNode e) 0).1)
      (firstSeen (varPairs ((annot (wrapNode e) 0).1).walkL)).1
      (firstSeen (varPairs ((annot (wrapNode e) 0).1).walkL)).2
      (sortNames ((firstSeen (varPairs ((annot (wrapNode e) 0).1).walkL)).1.map Prod.fst))) :=
    rfl
  rw [he] at h
  obtain rfl := Except.ok.inj h
  show sortNames ((firstSeen (varPairs ((annot (wrapNode e) 0).1).walkL)).1.map Prod.fst) = _
  rw [nameMap_keys]

/-- The concrete program compiled from `b + a` with an empty input order. -/
def progW10 : Prog :=
  { n_inputs := 2, n_temps := 0, input_names := ["a", "b"], constants := [],
    program := [⟨"add", 2, 1, some 0⟩],
    store := [(0, ⟨some 1, some "a", false, false, none⟩),
              (1, ⟨some 2, some "b", false, false, none⟩),
              (2, ⟨some 0, none, false, false, none⟩)],
    regAssign := [(2, 2), (0, 1), (1, 0)], rootRobj := 2,
    nameMap := [("b", 0), ("a", 1)], constMap := [], nodeMap := [(0, 0), (1, 1)] }

/-- C10 (witness): compiling `b + a` with an empty input order sorts the input
names. -/
theorem empty_input_order_ignored_inst :
    numexprNode (ENode.op2 "add" (ENode.var "b") (ENode.var "a")) (some []) = .ok progW10
    ∧ progW10.input_names
        = sortNames (dedupFirst (ENode.op2 "add" (ENode.var "b") (ENode.var "a")).varNamesE) :=
  ⟨rfl, (empty_input_order_ignored (ENode.op2 "add" (ENode.var "b") (ENode.var "a"))).2
    progW10 rfl⟩

/-- C6 (counterexample): compiling `x*3+2` sees the distinct constants in
first-seen walk order `[3, 2]`, but CPython 2 stores the float keys `3.0` and
`2.0` of `const_map` in hash slots 3 and 2 of the dict's 8-slot table and
iterates the dict in slot order, so the `enumerate(const_map)` loop of lines
116-119 builds the pool `[2.0, 3.0]` — the pool and the constant register
indices do not follow the first-seen walk order. -/
theorem constant_pool_order_counterexample :
    (numexprStr "x*3+2" none).map Prog.constants = .ok [3, 2]
    ∧ (numexprStr "x*3+2" none).map (fun p => dictIterOrder p.constants) = .ok [2, 3]
    ∧ ([2, 3] : List ℚ) ≠ [3, 2] :=
  ⟨rfl, rfl, by decide⟩

/-- C6 (amended): the constant pool holds exactly the distinct constant values
of the expression (one slot per value, duplicate-free), the pool slots are the
values of the canonical constant map in matching positions, and the canonical
constant node of the value in pool slot `j` is assigned the constant-file
register with index `j` holding that value. This single-loop slot/value/index
correspondence (lines 116-119) holds for any iteration order of `const_map`;
the order itself is CPython 2 hash-slot order, not first-seen walk order. -/
theorem constant_pool_register_correspondence (e : ENode) (order : Option (List String))
    (p : Prog) (h : numexprNode e order = .ok p) :
    p.constants.Nodup
    ∧ (∀ v, v ∈ p.constants ↔ v ∈ e.constValsE)
    ∧ p.constants = p.constMap.map Prod.fst
    ∧ ∀ j (hj : j < p.constMap.length),
        ∃ robj, alookup ((p.constMap.get ⟨j, hj⟩).2) p.regAssign = some robj
          ∧ regAt p.store robj
            = ⟨some j, none, false, true, some ((p.constMap.get ⟨j, hj⟩).1)⟩ := by
  obtain ⟨ord, rfl⟩ := numexprNode_ok h
  have hw := walk_nids_nodup (wrapNode e) 0
  have hex : ((annot (wrapNode e) 0).1).isOpN = true := by
    rw [annot_isOpN]
    exact wrapNode_isOp e
  refine ⟨?_, ?_, rfl, ?_⟩
  · show ((bpCM ((annot (wrapNode e) 0).1)).1.map Prod.fst).Nodup
    rw [cm_keys]
    exact nodup_dedupFirst _
  · intro v
    show v ∈ (bpCM ((annot (wrapNode e) 0).1)).1.map Prod.fst ↔ _
    rw [cm_keys, mem_dedupFirst]
  · intro j hj
    obtain ⟨h1, h2⟩ := buildProg_const_reg
      (firstSeen (varPairs ((annot (wrapNode e) 0).1).walkL)).1
      (firstSeen (varPairs ((annot (wrapNode e) 0).1).walkL)).2 ord hw hex hj
    exact ⟨_, h1, h2⟩

/-- The concrete program compiled from `x * 2 + 3` (as the already-normalized
tree `add(mul_c(x, 2), 3)`). -/
def progW6 : Prog :=
  { n_inputs := 1, n_temps := 0, input_names := ["x"], constants := [2, 3],
    program := [⟨"mul_c", 1, 0, some 3⟩, ⟨"add", 1, 1, some 4⟩],
    store := [(0, ⟨some 1, some "x", false, false, none⟩),
              (1, ⟨some 0, none, false, false, none⟩),
              (2, ⟨none, none, true, false, none⟩),
              (3, ⟨some 0, none, false, true, some 2⟩),
              (4, ⟨some 1, none, false, true, some 3⟩)],
    regAssign := [(4, 1), (3, 4), (1, 3), (4, 2), (2, 1), (0, 0)], rootRobj := 1,
    nameMap := [("x", 0)], constMap := [(2, 1), (3, 3)],
    nodeMap := [(0, 0), (1, 1), (3, 3)] }

/-- C6 (witness): compiling `add(mul_c(x, 2), 3)` yields a duplicate-free pool
holding exactly the constants 2 and 3, with the constant of pool slot `j`
assigned constant register index `j`. -/
theorem constant_pool_register_correspondence_inst :
    numexprNode (ENode.op2 "add" (ENode.op2 "mul_c" (ENode.var "x") (ENode.const 2))
        (ENode.const 3)) none = .ok progW6
    ∧ (progW6.constants.Nodup
      ∧ (∀ v, v ∈ progW6.constants ↔ v ∈ (ENode.op2 "add"
            (ENode.op2 "mul_c" (ENode.var "x") (ENode.const 2)) (ENode.const 3)).constValsE)
      ∧ progW6.constants = progW6.constMap.map Prod.fst
      ∧ ∀ j (hj : j < progW6.constMap.length),
          ∃ robj, alookup ((progW6.constMap.get ⟨j, hj⟩).2) progW6.regAssign = some robj
            ∧ regAt progW6.store robj
              = ⟨some j, none, false, true, some ((progW6.constMap.get ⟨j, hj⟩).1)⟩) :=
  ⟨rfl, constant_pool_register_correspondence
    (ENode.op2 "add" (ENode.op2 "mul_c" (ENode.var "x") (ENode.const 2)) (ENode.const 3))
    none progW6 rfl⟩

theorem alookup_nameMap_iff (e : ENode) (s : String) :
    (alookup s (firstSeen (varPairs ((annot (wrapNode e) 0).1).walkL)).1 = none)
      ↔ s ∉ e.varNamesE := by
  rw [alookup_eq_none, nameMap_keys]
  constructor
  · intro h hmem
    exact h (mem_dedupFirst.mpr hmem)
  · intro h hmem
    exact h (mem_dedupFirst.mp hmem)

theorem contains_iff_mem {l : List String} {s : String} :
    l.contains s = true ↔ s ∈ l := by
  induction l with
  | nil => simp
  | cons h t ih => simp

/-- C5: for a non-empty caller-specified input order, compilation fails exactly
when the order names an identifier not used in the expression (reported first,
as `ValueError "input name ... not found in expression"`) or omits a used
variable name (`ValueError "input name ... not specified in order"`); when the
order lists exactly the used names, compilation succeeds and creates the input
registers with indices `1..n` in the given order. -/
theorem input_order_validation (e : ENode) (ord : List String) (hne : ord ≠ []) :
    ((∃ s ∈ ord, s ∉ e.varNamesE) →
        ∃ bad, bad ∈ ord ∧ bad ∉ e.varNamesE
          ∧ numexprNode e (some ord) = .error (.inputNotFound bad))
    ∧ ((∀ s ∈ ord, s ∈ e.varNamesE) → (∃ m ∈ e.varNamesE, m ∉ ord) →
        ∃ m, m ∈ e.varNamesE ∧ m ∉ ord
          ∧ numexprNode e (some ord) = .error (.inputNotSpecified m))
    ∧ ((∀ s ∈ ord, s ∈ e.varNamesE) → (∀ m ∈ e.varNamesE, m ∈ ord) →
        ∃ p, numexprNode e (some ord) = .ok p ∧ p.input_names = ord
          ∧ p.n_inputs = ord.length
          ∧ (p.store.filter (fun pr => pr.2.name.isSome)).map Prod.snd
              = (withIdx 0 ord).map (fun pr =>
                  { n := some (pr.1 + 1), name := some pr.2, temporary := false,
                    constant := false, value := none })) := by
  obtain ⟨hd, tl, rfl⟩ : ∃ hd tl, ord = hd :: tl := by
    cases ord with
    | nil => exact absurd rfl hne
    | cons hd tl => exact ⟨hd, tl, rfl⟩
  refine ⟨?_, ?_, ?_⟩
  · rintro ⟨s, hs, hsn⟩
    have hsome : ((hd :: tl).find? (fun t =>
        (alookup t (firstSeen (varPairs ((annot (wrapNode e) 0).1).walkL)).1).isNone)).isSome
        = true := by
      rw [List.find?_isSome]
      refine ⟨s, hs, ?_⟩
      rw [Option.isNone_iff_eq_none]
      exact (alookup_nameMap_iff e s).mpr hsn
    obtain ⟨bad, hbad⟩ := Option.isSome_iff_exists.mp hsome
    refine ⟨bad, List.mem_of_find?_eq_some hbad, ?_, ?_⟩
    · have hp := List.find?_some hbad
      rw [Option.isNone_iff_eq_none] at hp
      exact (alookup_nameMap_iff e bad).mp hp
    · show numexprNode e (some (hd :: tl)) = _
      simp only [numexprNode]
      rw [hbad]
  · intro hall ⟨m, hm, hmo⟩
    have hfind1 : ((hd :: tl).find? (fun t =>
        (alookup t (firstSeen (varPairs ((annot (wrapNode e) 0).1).walkL)).1).isNone))
        = none := by
      rw [List.find?_eq_none]
      intro x hx
      rw [Bool.not_eq_true, ← Bool.not_eq_true, Option.isNone_iff_eq_none]
      intro hnone
      exact (alookup_nameMap_iff e x).mp hnone (hall x hx)
    have hsome2 : (((firstSeen (varPairs ((annot (wrapNode e) 0).1).walkL)).1.map
        Prod.fst).find? (fun t => !(hd :: tl).contains t)).isSome = true := by
      rw [List.find?_isSome]
      refine ⟨m, ?_, ?_⟩
      · rw [nameMap_keys]
        exact mem_dedupFirst.mpr hm
      · simp only [Bool.not_eq_eq_eq_not, Bool.not_true]
        rw [← Bool.not_eq_true]
        intro hc
        exact hmo (contains_iff_mem.mp hc)
    obtain ⟨miss, hmiss⟩ := Option.isSome_iff_exists.mp hsome2
    refine ⟨miss, ?_, ?_, ?_⟩
    · have := List.mem_of_find?_eq_some hmiss
      rw [nameMap_keys] at this
      exact mem_dedupFirst.mp this
    · have hp := List.find?_some hmiss
      simp only [Bool.not_eq_eq_eq_not, Bool.not_true] at hp
      intro hmem
      rw [contains_iff_mem.mpr hmem] at hp
      exact absurd hp (by simp)
    · show numexprNode e (some (hd :: tl)) = _
      simp only [numexprNode]
      rw [hfind1, hmiss]
  · intro hall1 hall2
    have hfind1 : ((hd :: tl).find? (fun t =>
        (alookup t (firstSeen (varPairs ((annot (wrapNode e) 0).1).walkL)).1).isNone))
        = none := by
      rw [List.find?_eq_none]
      intro x hx
      rw [Bool.not_eq_true, ← Bool.not_eq_true, Option.isNone_iff_eq_none]
      intro hnone
      exact (alookup_nameMap_iff e x).mp hnone (hall1 x hx)
    have hfind2 : (((firstSeen (varPairs ((annot (wrapNode e) 0).1).walkL)).1.map
        Prod.fst).find? (fun t => !(hd :: tl).contains t)) = none := by
      rw [List.find?_eq_none]
      intro x hx
      rw [nameMap_keys] at hx
      have hmemx : x ∈ hd :: tl := hall2 x (mem_dedupFirst.mp hx)
      have hc : (hd :: tl).contains x = true := contains_iff_mem.mpr hmemx
      simp only [hc, Bool.not_true]
      simp
    refine ⟨buildProg ((annot (wrapNode e) 0).1)
      (firstSeen (varPairs ((annot (wrapNode e) 0).1).walkL)).1
      (firstSeen (varPairs ((annot (wrapNode e) 0).1).walkL)).2 (hd :: tl),
      ?_, rfl, rfl, ?_⟩
    · show numexprNode e (some (hd :: tl)) = _
      simp only [numexprNode]
      rw [hfind1, hfind2]
    · have hw := walk_nids_nodup (wrapNode e) 0
      have hex : ((annot (wrapNode e) 0).1).isOpN = true := by
        rw [annot_isOpN]
        exact wrapNode_isOp e
      exact buildProg_store_names
        (firstSeen (varPairs ((annot (wrapNode e) 0).1).walkL)).1
        (firstSeen (varPairs ((annot (wrapNode e) 0).1).walkL)).2 (hd :: tl) hw hex

/-- C5 (witness): the validation at the concrete expression `a + b` with the
caller order `["b", "a"]`. -/
theorem input_order_validation_inst :
    ((["b", "a"] : List String) ≠ [])
    ∧ (((∃ s ∈ (["b", "a"] : List String),
          s ∉ (ENode.op2 "add" (ENode.var "a") (ENode.var "b")).varNamesE) →
        ∃ bad, bad ∈ (["b", "a"] : List String)
          ∧ bad ∉ (ENode.op2 "add" (ENode.var "a") (ENode.var "b")).varNamesE
          ∧ numexprNode (ENode.op2 "add" (ENode.var "a") (ENode.var "b"))
              (some ["b", "a"]) = .error (.inputNotFound bad))
      ∧ ((∀ s ∈ (["b", "a"] : List String),
            s ∈ (ENode.op2 "add" (ENode.var "a") (ENode.var "b")).varNamesE) →
          (∃ m ∈ (ENode.op2 "add" (ENode.var "a") (ENode.var "b")).varNamesE,
            m ∉ (["b", "a"] : List String)) →
          ∃ m, m ∈ (ENode.op2 "add" (ENode.var "a") (ENode.var "b")).varNamesE
            ∧ m ∉ (["b", "a"] : List String)
            ∧ numexprNode (ENode.op2 "add" (ENode.var "a") (ENode.var "b"))
                (some ["b", "a"]) = .error (.inputNotSpecified m))
      ∧ ((∀ s ∈ (["b", "a"] : List String),
            s ∈ (ENode.op2 "add" (ENode.var "a") (ENode.var "b")).varNamesE) →
          (∀ m ∈ (ENode.op2 "add" (ENode.var "a") (ENode.var "b")).varNamesE,
            m ∈ (["b", "a"] : List String)) →
          ∃ p, numexprNode (ENode.op2 "add" (ENode.var "a") (ENode.var "b"))
              (some ["b", "a"]) = .ok p
            ∧ p.input_names = ["b", "a"]
            ∧ p.n_inputs = (["b", "a"] : List String).length
            ∧ (p.store.filter (fun pr => pr.2.name.isSome)).map Prod.snd
                = (withIdx 0 ["b", "a"]).map (fun pr =>
                    { n := some (pr.1 + 1), name := some pr.2, temporary := false,
                      constant := false, value := none }))) :=
  ⟨by decide, input_order_validation (ENode.op2 "add" (ENode.var "a") (ENode.var "b"))
    ["b", "a"] (by decide)⟩

end NumexprPy
